import Mathlib

/-!
Verification of the Scholar-Issue-Hunter extraction engine.

This file shallowly embeds the extraction engine of the repository
(`src/scripts/parsers.py`, `src/scripts/scraper.py`, `src/scraper.py`) in
Lean 4 and proves or refutes the frozen claims about it.  HTML documents
are modelled as an inductive tree of tags and text nodes; the behaviour of
the `html.parser` tree builder and of BeautifulSoup accessors
(`get_text`, `find`, `find_all`, `unwrap`, `decompose`, string
serialisation) is modelled by executable Lean functions.  Python strings
are modelled as `List Char` (with `String` wrappers at the interfaces);
the specific `re` patterns used by the sources are modelled by a small
backtracking matcher with Python's leftmost / priority-order / greedy
semantics.
-/

set_option maxRecDepth 10000

namespace SIH

/-! ### Python-style character and string primitives -/

/-- Characters stripped by Python `str.strip()` (the whitespace class used
by the sources: ASCII whitespace plus no-break space, which Python treats
as whitespace). -/
def pyWs (c : Char) : Bool :=
  c = ' ' || c = '\t' || c = '\n' || c = '\r' || c = '\x0b' || c = '\x0c' || c = '\xa0'

/-- Left strip by a character predicate. -/
def ltrimBy (p : Char → Bool) : List Char → List Char
  | [] => []
  | c :: r => if p c then ltrimBy p r else c :: r

/-- Right strip by a character predicate. -/
def rtrimBy (p : Char → Bool) (cs : List Char) : List Char :=
  (ltrimBy p cs.reverse).reverse

/-- Python `str.strip(chars)` given as a predicate. -/
def stripBy (p : Char → Bool) (cs : List Char) : List Char :=
  rtrimBy p (ltrimBy p cs)

/-- Python `str.strip()` (no argument: whitespace). -/
def pyStrip (cs : List Char) : List Char := stripBy pyWs cs

/-- Python `str.lower()` on a char (sources only feed ASCII). -/
def lowerC (c : Char) : Char := c.toLower

/-- Python `str.lower()`. -/
def lowerL (cs : List Char) : List Char := cs.map lowerC

/-- `a` starts with `b` (Python `str.startswith`). -/
def leadsWith : List Char → List Char → Bool
  | _, [] => true
  | [], _ :: _ => false
  | a :: as_, b :: bs => a = b && leadsWith as_ bs

/-- Python `str.find(sub)`: index of the first occurrence, or `none`. -/
def findSub (hay sub : List Char) : Option Nat :=
  match hay with
  | [] => if sub = [] then some 0 else none
  | _ :: t => if leadsWith hay sub then some 0 else (findSub t sub).map (· + 1)

/-- Python `sub in hay`. -/
def containsSub (hay sub : List Char) : Bool := (findSub hay sub).isSome

/-- Python `str.replace(old, new)`, fuelled recursion (the fuel, the
input length, is never exhausted since each step consumes a character). -/
def replaceSubGo (old new : List Char) : Nat → List Char → List Char
  | 0, cs => cs
  | _ + 1, [] => []
  | fuel + 1, c :: t =>
    if 0 < old.length && leadsWith (c :: t) old then
      new ++ replaceSubGo old new fuel (t.drop (old.length - 1))
    else
      c :: replaceSubGo old new fuel t

/-- Python `str.replace(old, new)` (all non-overlapping occurrences,
left to right). -/
def replaceSub (old new cs : List Char) : List Char :=
  replaceSubGo old new cs.length cs

/-- Python `re.sub(r'\s+', ' ', s)`, fuelled recursion. -/
def collapseWsGo : Nat → List Char → List Char
  | 0, cs => cs
  | _ + 1, [] => []
  | fuel + 1, c :: t =>
    if pyWs c then
      ' ' :: collapseWsGo fuel (ltrimBy pyWs t)
    else
      c :: collapseWsGo fuel t

/-- Python `re.sub(r'\s+', ' ', s)`: collapse whitespace runs to one space. -/
def collapseWs (cs : List Char) : List Char := collapseWsGo cs.length cs

/-- Python `str.split(sep)` on a single-character separator. -/
def splitOnC (sep : Char) (cs : List Char) : List (List Char) :=
  match cs with
  | [] => [[]]
  | c :: t =>
    let r := splitOnC sep t
    if c = sep then [] :: r
    else
      match r with
      | [] => [[c]]
      | h :: rs => (c :: h) :: rs

/-- Last element of a split (Python `split(sep)[-1]`, total because a
split is never empty). -/
def lastSplit (sep : Char) (cs : List Char) : List Char :=
  (splitOnC sep cs).getLastD []

/-- Python word character: `[A-Za-z0-9_]` (`\w` with ASCII inputs). -/
def isWordC (c : Char) : Bool :=
  ('a' ≤ c && c ≤ 'z') || ('A' ≤ c && c ≤ 'Z') || ('0' ≤ c && c ≤ '9') || c = '_'

/-- ASCII letter (`[A-Za-z]`). -/
def isAsciiAlpha (c : Char) : Bool :=
  ('a' ≤ c && c ≤ 'z') || ('A' ≤ c && c ≤ 'Z')

/-- ASCII digit (`\d` with ASCII inputs). -/
def isDigitC (c : Char) : Bool := '0' ≤ c && c ≤ '9'

/-! ### A small backtracking matcher for the `re` patterns of the sources

A matcher takes the previous character (for `\b`), the input suffix and a
continuation, and reports the group-1 capture plus the rest of the input
after the whole match.  Alternatives and greedy repetitions backtrack
through the continuation, giving Python's leftmost / priority-order /
greedy semantics for the pattern shapes the sources use. -/

/-- Match result: group-1 capture and remaining input. -/
abbrev MRes := Option (List Char × List Char)

/-- Difference list of the characters consumed so far (used for captures). -/
abbrev MAcc := List Char → List Char

/-- Matcher continuation: previous character, remaining input, consumed
characters so far. -/
abbrev MK := Option Char → List Char → MAcc → MRes

/-- A matcher in continuation-passing style. -/
abbrev M := Option Char → List Char → MAcc → MK → MRes

/-- The empty pattern. -/
def mEps : M := fun prev cs acc k => k prev cs acc

/-- The failing pattern. -/
def mFail : M := fun _ _ _ _ => none

/-- Literal string, optionally case-insensitive. -/
def mLit : List Char → Bool → M
  | [], _ => fun prev cs acc k => k prev cs acc
  | p :: ps, ci => fun _ cs acc k =>
    match cs with
    | [] => none
    | c :: t =>
      if (if ci then lowerC c = lowerC p else c = p) then
        mLit ps ci (some c) t (fun r => acc (c :: r)) k
      else none

/-- A single character of a class. -/
def mCh (p : Char → Bool) : M := fun _ cs acc k =>
  match cs with
  | [] => none
  | c :: t => if p c then k (some c) t (fun r => acc (c :: r)) else none

/-- Sequencing. -/
def mSeq (a b : M) : M := fun prev cs acc k => a prev cs acc (fun p2 c2 a2 => b p2 c2 a2 k)

/-- Sequencing of a list of matchers. -/
def mSeqs (l : List M) : M := l.foldr mSeq mEps

/-- Ordered alternation (first alternative preferred, as in `re`). -/
def mAlt (a b : M) : M := fun prev cs acc k =>
  match a prev cs acc k with
  | some r => some r
  | none => b prev cs acc k

/-- Ordered alternation over a list. -/
def mAlts (l : List M) : M := l.foldr mAlt mFail

/-- Greedy option (`x?`). -/
def mOpt (m : M) : M := fun prev cs acc k =>
  match m prev cs acc k with
  | some r => some r
  | none => k prev cs acc

/-- Length of the maximal run of class characters. -/
def countRun (p : Char → Bool) : List Char → Nat
  | [] => 0
  | c :: t => if p c then countRun p t + 1 else 0

/-- Length of the maximal run of class characters, capped. -/
def countRunCapped (p : Char → Bool) : Nat → List Char → Nat
  | 0, _ => 0
  | n + 1, cs =>
    match cs with
    | [] => 0
    | c :: t => if p c then countRunCapped p n t + 1 else 0

/-- Try consuming exactly `j` characters (greedily from `j` down to `lo`),
calling the continuation after each attempt. -/
def mTryFrom (lo : Nat) (prev : Option Char) (cs : List Char) (acc : MAcc)
    (k : MK) : Nat → MRes
  | 0 => if lo = 0 then k prev cs acc else none
  | j + 1 =>
    if j + 1 < lo then none
    else
      match k cs[j]? (cs.drop (j + 1)) (fun r => acc (cs.take (j + 1) ++ r)) with
      | some r => some r
      | none => mTryFrom lo prev cs acc k j

/-- Greedy class repetition `p{lo,hi}` (with `hi = none` for unbounded),
backtracking towards `lo`. -/
def mRepCls (p : Char → Bool) (lo : Nat) (hi : Option Nat) : M :=
  fun prev cs acc k =>
    let maxJ := match hi with
      | some h => countRunCapped p h cs
      | none => countRun p cs
    mTryFrom lo prev cs acc k maxJ

/-- Capture group (group 1; the sources use a single group per pattern).
The inner matcher runs with a fresh accumulator, whose final value is the
captured text. -/
def mGroup (m : M) : M := fun prev cs acc k =>
  m prev cs id (fun p2 c2 a2 =>
    (k p2 c2 (fun r => acc (a2 r))).map (fun pr => (a2 [], pr.2)))

/-- Is an optional character a word character (for `\b`)? -/
def isWordOpt : Option Char → Bool
  | none => false
  | some c => isWordC c

/-- Word boundary `\b`. -/
def mWordB : M := fun prev cs acc k =>
  if isWordOpt prev != isWordOpt cs.head? then k prev cs acc else none

/-- Terminal continuation: accept, returning the rest. -/
def mDone : MK := fun _ cs _ => some ([], cs)

/-- `re.search`: try the pattern at each position, leftmost match wins;
returns the group-1 capture of the first match. -/
def searchM (m : M) : Option Char → List Char → Option (List Char)
  | prev, cs =>
    match m prev cs id mDone with
    | some (cap, _) => some cap
    | none =>
      match cs with
      | [] => none
      | c :: t => searchM m (some c) t

/-- `re.sub` scan with fuel (the input length; each step consumes at
least one character, the degenerate zero-width case emits the current
character to preserve totality). -/
def subMGo (m : M) (repl : List Char) : Nat → Option Char → List Char → List Char
  | 0, _, cs => cs
  | _ + 1, prev, [] =>
    match m prev [] id mDone with
    | some _ => repl
    | none => []
  | fuel + 1, prev, c :: t =>
    match m prev (c :: t) id mDone with
    | some pr =>
      if pr.2.length < (c :: t).length then
        repl ++ subMGo m repl fuel
          ((((c :: t).take ((c :: t).length - pr.2.length)).getLast?).orElse (fun _ => prev)) pr.2
      else
        repl ++ c :: subMGo m repl fuel (some c) t
    | none =>
      c :: subMGo m repl fuel (some c) t

/-- `re.sub(pattern, repl, s)`: replace all non-overlapping matches,
scanning left to right. -/
def subM (m : M) (repl : List Char) (prev : Option Char) (cs : List Char) : List Char :=
  subMGo m repl (cs.length + 1) prev cs

/-! ### The `re` patterns of the sources -/

/-- The class `[:\s]`. -/
def clsColonWs (c : Char) : Bool := c = ':' || pyWs c

/-- The class `[\w.-]` of the email pattern. -/
def clsEmail (c : Char) : Bool := isWordC c || c = '.' || c = '-'

/-- `\d{1,2}\s+\w+\s+\d{4}` (date core of the labelled deadline patterns
in `JournalScraper.extract_deadline`). -/
def reDateW : M :=
  mSeqs [mRepCls isDigitC 1 (some 2), mRepCls pyWs 1 none,
    mRepCls isWordC 1 none, mRepCls pyWs 1 none, mRepCls isDigitC 4 (some 4)]

/-- `\d{1,2}\s+[A-Za-z]+\s+\d{4}` (date token of `is_metadata_line` and of
the parser deadline pattern in `parsers.py`). -/
def reDateA : M :=
  mSeqs [mRepCls isDigitC 1 (some 2), mRepCls pyWs 1 none,
    mRepCls isAsciiAlpha 1 none, mRepCls pyWs 1 none, mRepCls isDigitC 4 (some 4)]

/-- `deadline[:\s]+(\d{1,2}\s+\w+\s+\d{4})`, IGNORECASE. -/
def jsPat1 : M :=
  mSeqs [mLit "deadline".data true, mRepCls clsColonWs 1 none, mGroup reDateW]

/-- `due[:\s]+(\d{1,2}\s+\w+\s+\d{4})`, IGNORECASE. -/
def jsPat2 : M :=
  mSeqs [mLit "due".data true, mRepCls clsColonWs 1 none, mGroup reDateW]

/-- `submission[:\s]+(\d{1,2}\s+\w+\s+\d{4})`, IGNORECASE. -/
def jsPat3 : M :=
  mSeqs [mLit "submission".data true, mRepCls clsColonWs 1 none, mGroup reDateW]

/-- `(\d{1,2}\s+(?:Jan|Feb|Mar|Apr|May|Jun|Jul|Aug|Sep|Oct|Nov|Dec)[a-z]*\s+\d{4})`,
IGNORECASE (so `[a-z]` matches any ASCII letter). -/
def jsPat4 : M :=
  mGroup (mSeqs [mRepCls isDigitC 1 (some 2), mRepCls pyWs 1 none,
    mAlts [mLit "Jan".data true, mLit "Feb".data true, mLit "Mar".data true,
      mLit "Apr".data true, mLit "May".data true, mLit "Jun".data true,
      mLit "Jul".data true, mLit "Aug".data true, mLit "Sep".data true,
      mLit "Oct".data true, mLit "Nov".data true, mLit "Dec".data true],
    mRepCls isAsciiAlpha 0 none, mRepCls pyWs 1 none, mRepCls isDigitC 4 (some 4)])

/-- `(?:Submission deadline|Deadline):?\s*(\d{1,2}\s+[A-Za-z]+\s+\d{4})`,
IGNORECASE (deadline pattern of `parsers.py`). -/
def parsersDeadlinePat : M :=
  mSeqs [mAlt (mLit "Submission deadline".data true) (mLit "Deadline".data true),
    mOpt (mCh (· = ':')), mRepCls pyWs 0 none, mGroup reDateA]

/-- `guest\s+editors?[:\s]+([^.]+)`, IGNORECASE. -/
def jsEdPat1 : M :=
  mSeqs [mLit "guest".data true, mRepCls pyWs 1 none, mLit "editor".data true,
    mOpt (mCh (fun c => lowerC c = 's')), mRepCls clsColonWs 1 none,
    mGroup (mRepCls (fun c => c ≠ '.') 1 none)]

/-- `editors?[:\s]+([A-Z][^.]+)`, IGNORECASE (so `[A-Z]` matches any
ASCII letter). -/
def jsEdPat2 : M :=
  mSeqs [mLit "editor".data true, mOpt (mCh (fun c => lowerC c = 's')),
    mRepCls clsColonWs 1 none,
    mGroup (mSeqs [mCh isAsciiAlpha, mRepCls (fun c => c ≠ '.') 1 none])]

/-- `\b(Dr\.|Dr|Prof\.|Prof|Professor|Associate|Assistant)\b\.?`, IGNORECASE
(first honorific scrub of `extract_pure_name`). -/
def honorificPat1 : M :=
  mSeqs [mWordB,
    mAlts [mLit "Dr.".data true, mLit "Dr".data true, mLit "Prof.".data true,
      mLit "Prof".data true, mLit "Professor".data true,
      mLit "Associate".data true, mLit "Assistant".data true],
    mWordB, mOpt (mCh (· = '.'))]

/-- `\s+(Professor|Prof|Lecturer|Reader|Chair)\b`, IGNORECASE
(second honorific scrub of `extract_pure_name`). -/
def honorificPat2 : M :=
  mSeqs [mRepCls pyWs 1 none,
    mAlts [mLit "Professor".data true, mLit "Prof".data true,
      mLit "Lecturer".data true, mLit "Reader".data true, mLit "Chair".data true],
    mWordB]

/-- `[\w\.-]+@[\w\.-]+\.\w+` (email scrub of `extract_pure_name`). -/
def emailPat : M :=
  mSeqs [mRepCls clsEmail 1 none, mCh (· = '@'), mRepCls clsEmail 1 none,
    mCh (· = '.'), mRepCls isWordC 1 none]

/-! ### The document tree (model of a BeautifulSoup parse tree)

A parsed document is a forest of nodes; a node is a `NavigableString` or
a `Tag` with a name, attributes and children.  `html.parser` lower-cases
tag names, so tree-building functions store lower-cased names. -/

/-- A node of the parse tree. -/
inductive Node where
  | text (s : List Char)
  | elem (name : String) (attrs : List (String × String)) (children : List Node)

/-- A parsed document (`BeautifulSoup` object): a forest. -/
abbrev Doc := List Node

/-- Is the node a `Tag`? -/
def isElem : Node → Bool
  | .text _ => false
  | .elem .. => true

/-- Tag name (empty for strings). -/
def nodeName : Node → String
  | .text _ => ""
  | .elem nm _ _ => nm

/-- Tag attributes. -/
def nodeAttrs : Node → List (String × String)
  | .text _ => []
  | .elem _ a _ => a

/-- Tag children. -/
def nodeChildren : Node → List Node
  | .text _ => []
  | .elem _ _ cs => cs

/-- Attribute lookup (`tag.get(key)` / `tag[key]`). -/
def getAttr (n : Node) (key : String) : Option String :=
  ((nodeAttrs n).find? (fun kv => kv.1 = key)).map (fun kv => kv.2)

mutual

/-- All `NavigableString` contents of a node, in document order. -/
def textsN : Node → List (List Char)
  | .text s => [s]
  | .elem _ _ cs => textsL cs

/-- All `NavigableString` contents of a forest, in document order. -/
def textsL : List Node → List (List Char)
  | [] => []
  | n :: r => textsN n ++ textsL r

end

/-- Join pieces with a separator. -/
def joinSep (sep : List Char) : List (List Char) → List Char
  | [] => []
  | [x] => x
  | x :: y :: r => x ++ sep ++ joinSep sep (y :: r)

/-- BeautifulSoup `get_text(separator, strip)` over a forest: join all the
strings, stripping each and dropping the ones that become empty when
`strip` is set. -/
def getTextL (sep : List Char) (strip : Bool) (ns : List Node) : List Char :=
  if strip then joinSep sep (((textsL ns).map pyStrip).filter (fun s => s ≠ []))
  else joinSep sep (textsL ns)

/-- `get_text` on one node. -/
def getTextN (sep : List Char) (strip : Bool) (n : Node) : List Char :=
  getTextL sep strip [n]

mutual

/-- Pre-order list of all `Tag`s of a node (the node first if it is a tag). -/
def preorderN : Node → List Node
  | .text _ => []
  | .elem nm a cs => .elem nm a cs :: preorderL cs

/-- Pre-order list of all `Tag`s of a forest. -/
def preorderL : List Node → List Node
  | [] => []
  | n :: r => preorderN n ++ preorderL r

end

/-- Does the forest contain a tag with one of the names
(`tag.find([...])` used as a truth test)? -/
def hasElemNamed (names : List String) (ns : List Node) : Bool :=
  (preorderL ns).any (fun n => names.contains (nodeName n))

/-- First tag with one of the names, in pre-order (`find(name)`). -/
def findElemNamed (names : List String) (ns : List Node) : Option Node :=
  (preorderL ns).find? (fun n => names.contains (nodeName n))

mutual

/-- `decompose()` every tag whose name is in the list (with its subtree). -/
def removeNamesN (names : List String) : Node → List Node
  | .text s => [.text s]
  | .elem nm a cs =>
    if names.contains nm then [] else [.elem nm a (removeNamesL names cs)]

/-- `decompose()` by name over a forest. -/
def removeNamesL (names : List String) : List Node → List Node
  | [] => []
  | n :: r => removeNamesN names n ++ removeNamesL names r

end

mutual

/-- `unwrap()` every tag whose name is in the list (children are kept). -/
def unwrapNamesN (names : List String) : Node → List Node
  | .text s => [.text s]
  | .elem nm a cs =>
    if names.contains nm then unwrapNamesL names cs
    else [.elem nm a (unwrapNamesL names cs)]

/-- `unwrap()` by name over a forest. -/
def unwrapNamesL (names : List String) : List Node → List Node
  | [] => []
  | n :: r => unwrapNamesN names n ++ unwrapNamesL names r

end

/-- Fuelled splitting of a `class` attribute value on whitespace. -/
def splitWsWordsGo : Nat → List Char → List (List Char)
  | 0, _ => []
  | _ + 1, [] => []
  | fuel + 1, c :: t =>
    if pyWs c then splitWsWordsGo fuel t
    else (c :: t.takeWhile (fun x => !pyWs x)) :: splitWsWordsGo fuel (t.dropWhile (fun x => !pyWs x))

/-- Words of a multi-valued `class` attribute (split on whitespace). -/
def splitWsWords (cs : List Char) : List (List Char) := splitWsWordsGo cs.length cs

/-- BeautifulSoup `class_=cls` filter: the `class` attribute, split on
whitespace, contains the value. -/
def hasClass (n : Node) (cls : String) : Bool :=
  match getAttr n "class" with
  | none => false
  | some v => (splitWsWords v.data).contains cls.data

/-! ### Serialisation (`str(soup)` with the `minimal` formatter) -/

/-- Escape one text character (`&`, `<`, `>`). -/
def escChar (c : Char) : List Char :=
  if c = '&' then "&amp;".data
  else if c = '<' then "&lt;".data
  else if c = '>' then "&gt;".data
  else [c]

/-- Escape text content. -/
def escapeText : List Char → List Char
  | [] => []
  | c :: t => escChar c ++ escapeText t

/-- Escape one attribute-value character. -/
def escAttrChar (c : Char) : List Char :=
  if c = '"' then "&quot;".data else escChar c

/-- Escape an attribute value. -/
def escapeAttr : List Char → List Char
  | [] => []
  | c :: t => escAttrChar c ++ escapeAttr t

/-- Serialise attributes. -/
def renderAttrs : List (String × String) → List Char
  | [] => []
  | (k, v) :: r => ' ' :: (k.data ++ '=' :: '"' :: (escapeAttr v.data ++ '"' :: renderAttrs r))

/-- Void (self-closing) element names handled by the tree builder. -/
def voidNames : List String := ["br", "img", "hr", "input", "meta", "link"]

mutual

/-- `str(node)`. -/
def renderN : Node → List Char
  | .text s => escapeText s
  | .elem nm attrs cs =>
    if voidNames.contains nm && cs.isEmpty then
      '<' :: (nm.data ++ renderAttrs attrs ++ '/' :: '>' :: [])
    else
      '<' :: (nm.data ++ renderAttrs attrs ++ '>' :: (renderL cs ++ '<' :: '/' :: (nm.data ++ ['>'])))

/-- `str(soup)` over a forest. -/
def renderL : List Node → List Char
  | [] => []
  | n :: r => renderN n ++ renderL r

end

/-! ### The tree builder (model of `BeautifulSoup(s, "html.parser")`)

A lenient recursive-descent builder: text runs with entity decoding, tags
with loosely parsed attributes, void elements without children, stray or
mismatched close tags skipped.  Recursion is fuelled by the input length. -/

/-- Characters of a tag name. -/
def isTagNameChar (c : Char) : Bool := isAsciiAlpha c || isDigitC c

/-- Does the input start a markup tag (`<` followed by a letter or `/`)? -/
def tagStart (cs : List Char) : Bool :=
  match cs with
  | '<' :: '/' :: _ => true
  | '<' :: c :: _ => isAsciiAlpha c
  | _ => false

/-- Read a text run up to the next tag, decoding the entities the sources
can encounter (`&amp;` `&lt;` `&gt;` `&nbsp;`); unknown entities are kept
literally. -/
def readText : Nat → List Char → List Char × List Char
  | 0, cs => ([], cs)
  | _ + 1, [] => ([], [])
  | fuel + 1, c :: t =>
    if tagStart (c :: t) then ([], c :: t)
    else if c = '&' then
      if leadsWith t "amp;".data then
        let (x, r) := readText fuel (t.drop 4); ('&' :: x, r)
      else if leadsWith t "lt;".data then
        let (x, r) := readText fuel (t.drop 3); ('<' :: x, r)
      else if leadsWith t "gt;".data then
        let (x, r) := readText fuel (t.drop 3); ('>' :: x, r)
      else if leadsWith t "nbsp;".data then
        let (x, r) := readText fuel (t.drop 5); ('\xa0' :: x, r)
      else
        let (x, r) := readText fuel t; ('&' :: x, r)
    else
      let (x, r) := readText fuel t; (c :: x, r)

/-- Stop characters of an attribute name. -/
def attrKeyStop (c : Char) : Bool := pyWs c || c = '=' || c = '>' || c = '/'

/-- Read the attribute list of an open tag, consuming through `>`. -/
def readAttrsGo : Nat → List Char → List (String × String) × List Char
  | 0, cs => ([], cs)
  | _ + 1, [] => ([], [])
  | fuel + 1, c :: t =>
    if c = '>' then ([], t)
    else if pyWs c || c = '/' then readAttrsGo fuel t
    else
      let key := (c :: t).takeWhile (fun x => !attrKeyStop x)
      let rest1 := (c :: t).dropWhile (fun x => !attrKeyStop x)
      match rest1 with
      | '=' :: '"' :: r2 =>
        let v := r2.takeWhile (fun x => x ≠ '"')
        let r3 := (r2.dropWhile (fun x => x ≠ '"')).drop 1
        let (as_, r4) := readAttrsGo fuel r3
        ((String.mk (lowerL key), String.mk v) :: as_, r4)
      | '=' :: '\'' :: r2 =>
        let v := r2.takeWhile (fun x => x ≠ '\'')
        let r3 := (r2.dropWhile (fun x => x ≠ '\'')).drop 1
        let (as_, r4) := readAttrsGo fuel r3
        ((String.mk (lowerL key), String.mk v) :: as_, r4)
      | '=' :: r2 =>
        let v := r2.takeWhile (fun x => !(pyWs x || x = '>'))
        let r3 := r2.dropWhile (fun x => !(pyWs x || x = '>'))
        let (as_, r4) := readAttrsGo fuel r3
        ((String.mk (lowerL key), String.mk v) :: as_, r4)
      | _ =>
        let (as_, r4) := readAttrsGo fuel rest1
        ((String.mk (lowerL key), "") :: as_, r4)

/-- Consume a close tag if its (lower-cased) name matches. -/
def consumeClose (nm : String) (cs : List Char) : List Char :=
  match cs with
  | '<' :: '/' :: r =>
    if lowerL (r.takeWhile isTagNameChar) = nm.data then
      ((r.dropWhile isTagNameChar).dropWhile (fun x => x ≠ '>')).drop 1
    else cs
  | _ => cs

/-- Parse a sequence of sibling nodes, stopping at a close tag or at the
end of input. -/
def parseNodesGo : Nat → List Char → List Node × List Char
  | 0, cs => ([], cs)
  | _ + 1, [] => ([], [])
  | fuel + 1, c :: t =>
    if c = '<' then
      match t with
      | '/' :: _ => ([], c :: t)
      | _ =>
        if (t.head?.map isAsciiAlpha).getD false then
          let nm := String.mk (lowerL (t.takeWhile isTagNameChar))
          let afterName := t.dropWhile isTagNameChar
          let (attrs, afterTag) := readAttrsGo fuel afterName
          if voidNames.contains nm then
            let (sibs, r) := parseNodesGo fuel afterTag
            (.elem nm attrs [] :: sibs, r)
          else
            let (kids, r1) := parseNodesGo fuel afterTag
            let r2 := consumeClose nm r1
            let (sibs, r3) := parseNodesGo fuel r2
            (.elem nm attrs kids :: sibs, r3)
        else
          let (txt, r) := readText fuel (c :: t)
          let (sibs, r2) := parseNodesGo fuel r
          (if txt.isEmpty then sibs else .text txt :: sibs, r2)
    else
      let (txt, r) := readText fuel (c :: t)
      let (sibs, r2) := parseNodesGo fuel r
      (if txt.isEmpty then sibs else .text txt :: sibs, r2)

/-- Skip past the `>` of a stray close tag. -/
def skipStrayClose (cs : List Char) : List Char :=
  (cs.dropWhile (fun x => x ≠ '>')).drop 1

/-- Parse a whole document, skipping stray close tags at the top level. -/
def parseTopGo : Nat → List Char → List Node
  | 0, _ => []
  | fuel + 1, cs =>
    let (ns, rest) := parseNodesGo (fuel + 1) cs
    match rest with
    | [] => ns
    | _ => ns ++ parseTopGo fuel (skipStrayClose rest)

/-- `BeautifulSoup(s, "html.parser")`. -/
def parseHtml (s : List Char) : Doc := parseTopGo (s.length + 1) s

/-! ### `clean_html_attributes` (`src/scripts/parsers.py`) -/

/-- Tags retained by the cleaner. -/
def validCleanNames : List String := ["p", "ul", "ol", "li", "br"]

mutual

/-- Passes 1–3 of the cleaner: unwrap every tag outside the retained set
(the pass-1 list span/div/font/strong/b/em/i is a subset of those) and
strip all attributes of the retained tags. -/
def normTagsN : Node → List Node
  | .text s => [.text s]
  | .elem nm _ cs =>
    if validCleanNames.contains nm then [.elem nm [] (normTagsL cs)]
    else normTagsL cs

/-- Passes 1–3 over a forest. -/
def normTagsL : List Node → List Node
  | [] => []
  | n :: r => normTagsN n ++ normTagsL r

end

/-- Is all text content whitespace (`get_text(strip=True)` is empty)? -/
def textAllWs (s : List Char) : Bool := s.all pyWs

mutual

/-- Is the whole text content of a node whitespace? -/
def nodeTextWs : Node → Bool
  | .text s => textAllWs s
  | .elem _ _ cs => forestTextWs cs

/-- Is the whole text content of a forest whitespace? -/
def forestTextWs : List Node → Bool
  | [] => true
  | n :: r => nodeTextWs n && forestTextWs r

end

mutual

/-- Pass 4 of the cleaner: `decompose()` tags with empty stripped text. -/
def removeEmptyN : Node → List Node
  | .text s => [.text s]
  | .elem nm a cs =>
    if forestTextWs cs then [] else [.elem nm a (removeEmptyL cs)]

/-- Pass 4 over a forest. -/
def removeEmptyL : List Node → List Node
  | [] => []
  | n :: r => removeEmptyN n ++ removeEmptyL r

end

/-- The tree transform of `clean_html_attributes` (passes 1–4). -/
def cleanTree (ns : List Node) : List Node := removeEmptyL (normTagsL ns)

/-- `clean_html_attributes(html_content)` (`src/scripts/parsers.py`,
lines 8–37): falsy input short-circuits to the empty string, otherwise
parse, clean and serialise with a final `strip()`. -/
def clean_html_attributes (html_content : Option String) : String :=
  match html_content with
  | none => ""
  | some s =>
    if s.data.isEmpty then ""
    else String.mk (pyStrip (renderL (cleanTree (parseHtml s.data))))

/-! ### `extract_pure_name` and `is_metadata_line` (`src/scripts/parsers.py`) -/

/-- The stop indicators, in source order. -/
def stopIndicators : List String :=
  ["Department", "University", "School", "Institute", "Center", "Centre",
   "College", "Faculty", "Lead", "Principal", "Chair", "Lecturer", "Reader",
   "Email", " at ", " of ", "Head",
   "Affiliation", "Areas", "Expertise", "Interests"]

/-- The normalisation at the top of `extract_pure_name`:
`replace('&nbsp;', ' ')`, `strip()`, `re.sub(r'\s+', ' ', ...)`. -/
def pureNameNormalize (s : List Char) : List Char :=
  collapseWs (pyStrip (replaceSub "&nbsp;".data " ".data s))

/-- The stop-indicator loop of `extract_pure_name`: for each indicator in
order, find its first case-insensitive occurrence; index under 3 rejects
the whole input (`none`), otherwise the text is truncated there. -/
def indicatorLoop : List Char → List String → Option (List Char)
  | t, [] => some t
  | t, w :: ws =>
    match findSub (lowerL t) (lowerL w.data) with
    | none => indicatorLoop t ws
    | some i => if i < 3 then none else indicatorLoop (t.take i) ws

/-- The characters of `strip(" ,.-:")`. -/
def stripNameChars (c : Char) : Bool :=
  c = ' ' || c = ',' || c = '.' || c = '-' || c = ':'

/-- `extract_pure_name(text)` (`src/scripts/parsers.py`, lines 39–65). -/
def extract_pure_name (text : String) : String :=
  match indicatorLoop (pureNameNormalize text.data) stopIndicators with
  | none => ""
  | some t1 =>
    let t2 := if containsSub t1 [','] then (splitOnC ',' t1).headD [] else t1
    let t3 := subM honorificPat1 [] none t2
    let t4 := subM honorificPat2 [] none t3
    let t5 := subM emailPat [] none t4
    String.mk (pyStrip (stripBy stripNameChars t5))

/-- `is_metadata_line(text)` (`src/scripts/parsers.py`, lines 67–73). -/
def is_metadata_line (text : String) : Bool :=
  if containsSub (lowerL text.data) "submission deadline".data && text.data.length < 100 then
    true
  else if text.data.length < 30 && (searchM reDateA none text.data).isSome then
    true
  else false

/-! ### The parser result record and the two `parsers.py` parsers -/

/-- The `{deadline, editors, description}` triple returned by each parser. -/
structure ParseResult where
  deadline : String
  editors : String
  description : String
  deriving DecidableEq, Repr

/-- `default_fallback()` (`src/scripts/parsers.py`, lines 202–203). -/
def default_fallback : ParseResult :=
  { deadline := "Unknown", editors := "Unknown", description := "" }

/-- Section state of the state-machine walks. -/
inductive WalkMode where
  | description
  | editors
  deriving DecidableEq, Repr

/-- Elements after the first pre-order tag satisfying the test
(`found.find_all_next(...)` domain); `none` when no tag matches. -/
def afterFirst (p : Node → Bool) : List Node → Option (List Node)
  | [] => none
  | n :: r => if p n then some r else afterFirst p r

/-- A collected description block: `div` renamed to `p`, attributes
cleared, nested `a` tags unwrapped, then `str(tag)` (`parsers.py`). -/
def descFragment (n : Node) : List Char :=
  let nm := if nodeName n = "div" then "p" else nodeName n
  renderN (.elem nm [] (unwrapNamesL ["a"] (nodeChildren n)))

/-- Noise tags decomposed by `parse_rse_sciencedirect` (the `.banner` and
`.cookie-notice` entries are passed to `find_all` as tag names and never
match a tag). -/
def rseNoise : List String :=
  ["header", "footer", "nav", "script", "style", "noscript", ".banner", ".cookie-notice"]

/-- `container = soup.find('div', class_='inner') or soup.find('main') or
soup.body`, returning the pre-order elements after the container
(`find_all_next` domain). -/
def rseContainerAfter (doc : Doc) : Option (List Node) :=
  match afterFirst (fun n => nodeName n == "div" && hasClass n "inner") (preorderL doc) with
  | some r => some r
  | none =>
    match afterFirst (fun n => nodeName n == "main") (preorderL doc) with
    | some r => some r
    | none => afterFirst (fun n => nodeName n == "body") (preorderL doc)

/-- `container.find_all_next(['p', 'div', 'ul', 'ol', 'h3'])`. -/
def rseElements (doc : Doc) : Option (List Node) :=
  (rseContainerAfter doc).map
    (fun after => after.filter (fun n => ["p", "div", "ul", "ol", "h3"].contains (nodeName n)))

/-- The state-machine loop of `parse_rse_sciencedirect`
(`src/scripts/parsers.py`, lines 157–192), accumulating editor names and
description fragments.  The stop check runs before the mode triggers. -/
def rseWalk : WalkMode → List (List Char) → List (List Char) → List Node →
    List (List Char) × List (List Char)
  | _, eds, descs, [] => (eds, descs)
  | mode, eds, descs, n :: rest =>
    if hasElemNamed ["p", "div", "ul", "ol"] (nodeChildren n) then
      rseWalk mode eds descs rest
    else
      let text := getTextN " ".data true n
      let tl := lowerL text
      if text.length < 3 then rseWalk mode eds descs rest
      else if containsSub tl "manuscript submission".data || containsSub tl "keywords:".data then
        (eds, descs)
      else if containsSub tl "guest editors".data && text.length < 100 then
        rseWalk .editors eds descs rest
      else if (containsSub tl "special issue info".data || containsSub tl "aims and scope".data)
          && text.length < 100 then
        rseWalk .description eds descs rest
      else if containsSub tl "science direct".data then
        rseWalk mode eds descs rest
      else
        match mode with
        | .editors =>
          if text.length < 300 then
            let pure_name := (extract_pure_name (String.mk text)).data
            if !pure_name.isEmpty && !containsSub pure_name ['@'] && pure_name.length > 2 then
              rseWalk mode (eds ++ [pure_name]) descs rest
            else rseWalk mode eds descs rest
          else rseWalk mode eds descs rest
        | .description =>
          if is_metadata_line (String.mk text) then rseWalk mode eds descs rest
          else if ["p", "ul", "ol", "div"].contains (nodeName n) then
            if nodeName n == "div" && text.length < 30 then rseWalk mode eds descs rest
            else rseWalk mode eds (descs ++ [descFragment n]) rest
          else rseWalk mode eds descs rest

/-- `dict.fromkeys(...)` de-duplication: first occurrence wins, order kept. -/
def dedupKeepFirstGo (seen : List (List Char)) : List (List Char) → List (List Char)
  | [] => []
  | x :: r =>
    if seen.contains x then dedupKeepFirstGo seen r
    else x :: dedupKeepFirstGo (x :: seen) r

/-- `list(dict.fromkeys(editors_parts))`. -/
def dedupKeepFirst (l : List (List Char)) : List (List Char) := dedupKeepFirstGo [] l

/-- `parse_rse_sciencedirect(soup)` (`src/scripts/parsers.py`,
lines 134–200). -/
def parse_rse_sciencedirect (soup : Option Doc) : ParseResult :=
  match soup with
  | none => default_fallback
  | some doc0 =>
    let doc := removeNamesL rseNoise doc0
    let full_text := getTextL " ".data true doc
    let deadline := match searchM parsersDeadlinePat none full_text with
      | some cap => String.mk cap
      | none => "Check Link"
    match rseElements doc with
    | none => default_fallback
    | some els =>
      let acc := rseWalk .description [] [] els
      let unique_editors := dedupKeepFirst acc.1
      { deadline := deadline,
        editors := if unique_editors.isEmpty then "See website"
          else String.mk (joinSep "<br>".data unique_editors),
        description := clean_html_attributes (some (String.mk (joinSep [] acc.2))) }

/-- The `start_node` test of `parse_cities_sciencedirect`: an `h2`/`h3`
whose raw `get_text()` contains `"Call for papers"`. -/
def citiesStartPred (n : Node) : Bool :=
  ["h2", "h3"].contains (nodeName n) && containsSub (getTextN [] false n) "Call for papers".data

/-- The description loop of `parse_cities_sciencedirect`
(`src/scripts/parsers.py`, lines 93–110). -/
def citiesDescWalk : List (List Char) → List Node → List (List Char)
  | acc, [] => acc
  | acc, n :: rest =>
    if hasElemNamed ["p", "ul", "div"] (nodeChildren n) then citiesDescWalk acc rest
    else
      let text := getTextN [] true n
      let tl := lowerL text
      if containsSub tl "guest editors".data then citiesDescWalk acc rest
      else if containsSub tl "manuscript submission".data then acc
      else if containsSub tl "university".data then citiesDescWalk acc rest
      else if is_metadata_line (String.mk text) then citiesDescWalk acc rest
      else if text.length < 10 then citiesDescWalk acc rest
      else citiesDescWalk (acc ++ [descFragment n]) rest

/-- The editor loop of `parse_cities_sciencedirect`
(`src/scripts/parsers.py`, lines 113–123). -/
def citiesEditorLoop : List Node → List (List Char)
  | [] => []
  | d :: rest =>
    let text := getTextN [] true d
    let tl := lowerL text
    if containsSub tl "submit".data || containsSub tl "guide".data then citiesEditorLoop rest
    else if text.length > 2 && !containsSub tl "guest editors".data then
      let pure_name := (extract_pure_name (String.mk text)).data
      if pure_name.length > 2 && pure_name.length < 40 then
        pure_name :: citiesEditorLoop rest
      else citiesEditorLoop rest
    else citiesEditorLoop rest

/-- `parse_cities_sciencedirect(soup)` (`src/scripts/parsers.py`,
lines 78–129). -/
def parse_cities_sciencedirect (soup : Option Doc) : ParseResult :=
  match soup with
  | none => default_fallback
  | some doc =>
    let text := getTextL " ".data true doc
    let deadline := match searchM parsersDeadlinePat none text with
      | some cap => String.mk cap
      | none => "Check Link"
    let descs := match afterFirst citiesStartPred (preorderL doc) with
      | none => []
      | some after =>
        citiesDescWalk [] (after.filter (fun n => ["p", "ul", "div"].contains (nodeName n)))
    let eds := citiesEditorLoop
      ((preorderL doc).filter (fun n => nodeName n == "div" && hasClass n "OutlineElement"))
    { deadline := deadline,
      editors := if eds.isEmpty then "See website" else String.mk (joinSep "<br>".data eds),
      description := clean_html_attributes (some (String.mk (joinSep [] descs))) }

/-- `getParser(journal_name)` (`src/scripts/parsers.py`, lines 208–221):
`name_lower = journal_name.lower()` is inlined. -/
def getParser (journal_name : String) : Option Doc → ParseResult :=
  if containsSub (lowerL journal_name.data) "cities".data then
    parse_cities_sciencedirect
  else if containsSub (lowerL journal_name.data) "remote sensing".data
      || containsSub (lowerL journal_name.data) "building and environment".data then
    parse_rse_sciencedirect
  else
    parse_rse_sciencedirect

/-! ### `extract_details` (`src/scripts/scraper.py`, lines 44–151) -/

/-- Noise tags decomposed by `extract_details` (entries with a dot never
match a tag name). -/
def edNoise : List String :=
  ["header", "footer", "nav", "script", "style", "noscript", "iframe",
   ".banner", ".cookie-notice", ".submit-search-button-wrap"]

/-- An ancestor frame of the located deadline string: the ancestor tag's
name, its children and its following siblings. -/
structure Frame where
  name : String
  children : List Node
  following : List Node

mutual

/-- `soup.find(string=re.compile("Submission deadline", re.IGNORECASE))`
on one node: the node's following siblings and the ancestor stack are
threaded so the located string's ancestry can be reported. -/
def findAnchorN (stack : List Frame) (fol : List Node) : Node → Option (List Frame)
  | .text s =>
    if containsSub (lowerL s) "submission deadline".data then some stack else none
  | .elem nm _ cs => findAnchorL (⟨nm, cs, fol⟩ :: stack) cs

/-- Locate the first string (document order) containing the anchor text
and return the ancestor stack of the string, innermost first (`[]` when
the string sits at top level, `none` when no string matches). -/
def findAnchorL (stack : List Frame) : List Node → Option (List Frame)
  | [] => none
  | n :: r =>
    match findAnchorN stack r n with
    | some st => some st
    | none => findAnchorL stack r

end

/-- The deadline value near the anchor: a `strong` descendant of the
parent if present, else the text after the last colon of the parent's
text (`src/scripts/scraper.py`, lines 69–76). -/
def anchorDeadline (parentChildren : List Node) : List Char :=
  match findElemNamed ["strong"] parentChildren with
  | some st => getTextN [] true st
  | none => pyStrip (lastSplit ':' (getTextL [] true parentChildren))

/-- A collected description block of `extract_details`: `style`/`class`
attributes deleted, nested `a` tags unwrapped, then `str(tag)`. -/
def edDescFragment (n : Node) : List Char :=
  renderN (.elem (nodeName n)
    ((nodeAttrs n).filter (fun kv => !(kv.1 == "style" || kv.1 == "class")))
    (unwrapNamesL ["a"] (nodeChildren n)))

/-- The state-machine loop of `extract_details`
(`src/scripts/scraper.py`, lines 95–135) over the siblings after the
anchor block.  The guest-editors and special-issue-information triggers
are checked before the stop check. -/
def edWalk : WalkMode → List (List Char) → List (List Char) → List Node →
    List (List Char) × List (List Char)
  | _, eds, descs, [] => (eds, descs)
  | mode, eds, descs, n :: rest =>
    if !isElem n then edWalk mode eds descs rest
    else
      let text := getTextN [] true n
      let tl := lowerL text
      if containsSub tl "guest editors".data && text.length < 50 then
        edWalk .editors eds descs rest
      else if containsSub tl "special issue information".data && text.length < 100 then
        edWalk .description eds descs rest
      else if containsSub tl "manuscript submission".data || containsSub tl "keywords:".data then
        (eds, descs)
      else
        match mode with
        | .editors =>
          if text.length > 2 then
            edWalk mode (eds ++ [pyStrip (replaceSub "Email:".data [] text)]) descs rest
          else edWalk mode eds descs rest
        | .description =>
          if ["p", "ul", "ol", "div"].contains (nodeName n) && text.length > 10 then
            edWalk mode eds (descs ++ [edDescFragment n]) rest
          else edWalk mode eds descs rest

/-- Assembly of the `extract_details` result
(`src/scripts/scraper.py`, lines 137–151). -/
def assembleDetails (deadline : List Char) (eds descs : List (List Char)) : ParseResult :=
  let description_html := joinSep [] descs
  { deadline := String.mk deadline,
    editors := if eds.isEmpty then "Editors info not found."
      else String.mk (joinSep "<br>".data eds),
    description := if description_html.isEmpty then
        "Detailed description available on the official website."
      else String.mk description_html }

/-- `extract_details(soup)` (`src/scripts/scraper.py`, lines 44–151). -/
def extract_details (soup : Option Doc) : ParseResult :=
  match soup with
  | none => { deadline := "Unknown", editors := "Unknown", description := "" }
  | some doc0 =>
    let doc := removeNamesL edNoise doc0
    match findAnchorL [] doc with
    | none => assembleDetails "Check Detail".data [] []
    | some stack =>
      let parentChildren := match stack with
        | [] => doc
        | f :: _ => f.children
      let deadline := anchorDeadline parentChildren
      match stack.tail.find? (fun f => ["div", "p"].contains f.name) with
      | none => assembleDetails deadline [] []
      | some f =>
        let acc := edWalk .description [] [] f.following
        assembleDetails deadline acc.1 acc.2

/-! ### `parse_journal` (`src/scripts/scraper.py`, lines 153–196)

The network fetches are external collaborators: the listing page soup and
the detail-page fetcher are parameters; the `datetime.now()` stamp is a
parameter. -/

/-- One emitted special-issue record. -/
structure IssueRecord where
  title : String
  url : String
  deadline : String
  guest_editors : String
  description : String
  last_updated : String
  deriving DecidableEq, Repr

/-- `soup.select('a[href*="/special-issue/"]')`. -/
def selectIssueLinks (doc : Doc) : List Node :=
  (preorderL doc).filter (fun n =>
    nodeName n == "a" &&
    (match getAttr n "href" with
     | some h => containsSub h.data "/special-issue/".data
     | none => false))

/-- The loop body of `parse_journal` over the candidate links, with the
`seen_urls` set threaded through. -/
def parse_journal_go (fetch : String → Option Doc) (today : String) :
    List String → List Node → List IssueRecord
  | _, [] => []
  | seen, link :: rest =>
    let title := getTextN [] true link
    match getAttr link "href" with
    | none => parse_journal_go fetch today seen rest
    | some url0 =>
      if title.isEmpty || url0.data.isEmpty then parse_journal_go fetch today seen rest
      else
        let url := if leadsWith url0.data "http".data then url0
          else String.mk ("https://www.sciencedirect.com".data ++ url0.data)
        if seen.contains url then parse_journal_go fetch today seen rest
        else
          let details := extract_details (fetch url)
          { title := String.mk title, url := url, deadline := details.deadline,
            guest_editors := details.editors, description := details.description,
            last_updated := today } :: parse_journal_go fetch today (url :: seen) rest

/-- `parse_journal(journal)` (`src/scripts/scraper.py`, lines 153–196):
candidate links capped at 5, empty titles and missing hrefs skipped,
relative hrefs absolutised, records de-duplicated by URL. -/
def parse_journal (soup : Option Doc) (fetch : String → Option Doc) (today : String) :
    List IssueRecord :=
  match soup with
  | none => []
  | some doc => parse_journal_go fetch today [] ((selectIssueLinks doc).take 5)

/-- Modelled from the spec: the deduplicator contract of section 4.5
(`dedupe(records) -> records`, stable, first occurrence wins, keyed by a
record key), used as the specification-side description against which the
`parse_journal` loop is compared. -/
def dedupByKeyGo (key : IssueRecord → String) : List String → List IssueRecord → List IssueRecord
  | _, [] => []
  | seen, r :: rest =>
    if seen.contains (key r) then dedupByKeyGo key seen rest
    else r :: dedupByKeyGo key (key r :: seen) rest

/-- The candidate records of `parse_journal` before de-duplication (the
same loop without the `seen_urls` check). -/
def journalCandidates (fetch : String → Option Doc) (today : String) :
    List Node → List IssueRecord
  | [] => []
  | link :: rest =>
    let title := getTextN [] true link
    match getAttr link "href" with
    | none => journalCandidates fetch today rest
    | some url0 =>
      if title.isEmpty || url0.data.isEmpty then journalCandidates fetch today rest
      else
        let url := if leadsWith url0.data "http".data then url0
          else String.mk ("https://www.sciencedirect.com".data ++ url0.data)
        let details := extract_details (fetch url)
        { title := String.mk title, url := url, deadline := details.deadline,
          guest_editors := details.editors, description := details.description,
          last_updated := today } :: journalCandidates fetch today rest

/-! ### The `JournalScraper` extractors (`src/scraper.py`) -/

/-- `JournalScraper.extract_deadline(text)` (`src/scraper.py`,
lines 112–129): four patterns tried in priority order, first match's
group 1 returned. -/
def extract_deadline (text : String) : Option String :=
  match searchM jsPat1 none text.data with
  | some cap => some (String.mk cap)
  | none =>
    match searchM jsPat2 none text.data with
    | some cap => some (String.mk cap)
    | none =>
      match searchM jsPat3 none text.data with
      | some cap => some (String.mk cap)
      | none =>
        match searchM jsPat4 none text.data with
        | some cap => some (String.mk cap)
        | none => none

/-- `JournalScraper.extract_editors(text)` (`src/scraper.py`,
lines 131–149): a pattern whose stripped group is 200 characters or
longer falls through to the next pattern. -/
def extract_editors (text : String) : Option String :=
  let try1 := match searchM jsEdPat1 none text.data with
    | some cap =>
      let e := pyStrip cap
      if e.length < 200 then some (String.mk e) else none
    | none => none
  match try1 with
  | some e => some e
  | none =>
    match searchM jsEdPat2 none text.data with
    | some cap =>
      let e := pyStrip cap
      if e.length < 200 then some (String.mk e) else none
    | none => none

/-- The sentence loop of `extract_description`: first stripped
`.`-separated piece longer than 50 characters, with a dot appended. -/
def firstLongSentence : List (List Char) → List Char
  | [] => []
  | s :: rest =>
    let s2 := pyStrip s
    if s2.length > 50 then s2 ++ ['.'] else firstLongSentence rest

/-- `JournalScraper.extract_description(text, title)` (`src/scraper.py`,
lines 151–170). -/
def extract_description (text title : String) : Option String :=
  let t := replaceSub title.data [] text.data
  let d := firstLongSentence (splitOnC '.' t)
  let d2 := if d.length > 500 then d.take 497 ++ "...".data else d
  if d2.isEmpty then none else some (String.mk d2)

/-- The record built by `JournalScraper.extract_issue_info` (fields may
be `None`). -/
structure IssueInfo where
  title : String
  deadline : Option String
  guest_editors : Option String
  description : Option String
  url : Option String
  deriving DecidableEq, Repr

/-- `JournalScraper.extract_issue_info(element, base_url)`
(`src/scraper.py`, lines 69–110); the element's parent (if any) is passed
explicitly since the tree model has no parent pointers. -/
def extract_issue_info (element : Node) (parentOpt : Option Node) (base_url : String) :
    Option IssueInfo :=
  let title_elem := if ["h2", "h3", "h4"].contains (nodeName element) then some element
    else findElemNamed ["h2", "h3", "h4"] (nodeChildren element)
  match title_elem with
  | none => none
  | some te =>
    let title := getTextN [] true te
    if title.length < 10
        || ["special issues", "call for papers", "about"].contains (String.mk (lowerL title)) then
      none
    else
      let parent := match parentOpt with
        | some p => p
        | none => element
      let content := getTextN [] true parent
      let link := match findElemNamed ["a"] (nodeChildren element) with
        | some l => some l
        | none => findElemNamed ["a"] (nodeChildren parent)
      let url := match link with
        | some l => getAttr l "href"
        | none => some base_url
      let url2 := match url with
        | some u =>
          if !u.data.isEmpty && !leadsWith u.data "http".data then
            some (String.mk ("https://www.sciencedirect.com".data ++ u.data))
          else some u
        | none => none
      some { title := String.mk title,
             deadline := extract_deadline (String.mk content),
             guest_editors := extract_editors (String.mk content),
             description := extract_description (String.mk content) (String.mk title),
             url := url2 }

/-! ### Normal forms of cleaned trees (used by the idempotence proof) -/

/-- Is the node a string? -/
def isText : Node → Bool
  | .text _ => true
  | .elem .. => false

mutual

/-- Void-named tags are childless (true of every tree the tree builder
produces; what the cleaner needs of its input). -/
def nodeBrOk : Node → Bool
  | .text _ => true
  | .elem nm _ cs => (!voidNames.contains nm || cs.isEmpty) && forestBrOk cs

/-- `nodeBrOk` over a forest. -/
def forestBrOk : List Node → Bool
  | [] => true
  | n :: r => nodeBrOk n && forestBrOk r

end

mutual

/-- Shape after the unwrap/attribute passes (1–3) of the cleaner: every
tag is in the retained set, attribute-free, and `br` tags are childless. -/
def nodeMid : Node → Bool
  | .text _ => true
  | .elem nm a cs =>
    validCleanNames.contains nm && a.isEmpty && (!(nm == "br") || cs.isEmpty) && forestMid cs

/-- `nodeMid` over a forest. -/
def forestMid : List Node → Bool
  | [] => true
  | n :: r => nodeMid n && forestMid r

end

/-- Does the forest start with a text node? -/
def headIsText : List Node → Bool
  | .text _ :: _ => true
  | _ => false

mutual

/-- Normal form of the cleaner's output: every tag is one of
`p`/`ul`/`ol`/`li`, attribute-free, with non-whitespace text content. -/
def nodeNormal : Node → Bool
  | .text _ => true
  | .elem nm a cs =>
    ["p", "ul", "ol", "li"].contains nm && a.isEmpty && !forestTextWs cs && forestNormal cs

/-- `nodeNormal` over a forest. -/
def forestNormal : List Node → Bool
  | [] => true
  | n :: r => nodeNormal n && forestNormal r

end

mutual

/-- Good text shape: text nodes are non-empty and no two are adjacent
(what serialisation-then-reparsing preserves exactly). -/
def nodeGT : Node → Bool
  | .text s => !s.isEmpty
  | .elem _ _ cs => forestGT cs

/-- `nodeGT` over a forest. -/
def forestGT : List Node → Bool
  | [] => true
  | [n] => nodeGT n
  | a :: b :: r => nodeGT a && !(isText a && isText b) && forestGT (b :: r)

end

/-- Prepend text to a forest, merging with a leading text node and
dropping empty text. -/
def consText (s : List Char) (l : List Node) : List Node :=
  if s.isEmpty then l
  else
    match l with
    | .text t :: r => .text (s ++ t) :: r
    | _ => .text s :: l

mutual

/-- Merge adjacent text nodes and drop empty ones, recursively (the tree
whose serialisation re-parses to itself). -/
def coalN : Node → Node
  | .text s => .text s
  | .elem nm a cs => .elem nm a (coalL cs)

/-- `coalN` over a forest. -/
def coalL : List Node → List Node
  | [] => []
  | .text s :: r => consText s (coalL r)
  | .elem nm a cs :: r => coalN (.elem nm a cs) :: coalL r

end

/-- Left-trim the leading text of a forest (string-level `lstrip` seen at
tree level). -/
def ltrimNodes : List Node → List Node
  | [] => []
  | .text s :: r =>
    let s2 := ltrimBy pyWs s
    if s2.isEmpty then ltrimNodes r else .text s2 :: r
  | n :: r => n :: r

/-- Right-trim the trailing text of a forest. -/
def rtrimNodes : List Node → List Node
  | [] => []
  | n :: r =>
    match r with
    | _ :: _ => n :: rtrimNodes r
    | [] =>
      match n with
      | .text s =>
        let s2 := rtrimBy pyWs s
        if s2.isEmpty then [] else [.text s2]
      | other => [other]

/-- The canonical form whose serialisation is the cleaner's output
string: coalesce texts, then trim both edges. -/
def canonF (ns : List Node) : List Node := rtrimNodes (ltrimNodes (coalL ns))

/-! ### Fixtures (concrete inputs of witnesses and counterexamples) -/

/-- A detail page whose first sibling block after the deadline anchor
contains both the stop phrase and the guest-editors trigger. -/
def stopConflictDoc : Doc :=
  [.elem "div" [] [
    .elem "p" [] [.elem "strong" [] [.text "Submission deadline: 30 June 2026".data]],
    .elem "div" [] [.text "guest editors manuscript submission".data],
    .elem "p" [] [.text "Jane Doe".data]]]

/-- A listing with two candidate links whose titles agree after
lower-casing and trimming but whose URLs differ. -/
def dedupListingDoc : Doc :=
  [.elem "div" [] [
    .elem "a" [("href", "/special-issue/a")] [.text "Climate Risk".data],
    .elem "a" [("href", "/special-issue/b")] [.text "climate risk ".data]]]

/-- A heading element with a long-enough title and an `a` child without
any `href` attribute. -/
def hreflessElem : Node :=
  .elem "h2" [] [.text "A Title Long Enough".data, .elem "a" [] [.text "x".data]]

/-- A heading element with a long-enough title and an `a` child whose
`href` is the empty string. -/
def emptyHrefElem : Node :=
  .elem "h2" [] [.text "A Title Long Enough".data, .elem "a" [("href", "")] [.text "x".data]]

/-- A document whose deadline string has no `div`/`p` ancestor. -/
def gateDoc : Doc :=
  [.elem "span" [] [.text "Submission deadline: 1 May 2030".data],
   .elem "p" [] [.text "rich content that would otherwise be collected here".data]]

/-- The first-found stop indicator of the ordered scan: the first
indicator (in list order) present in the text, with the index of its
first case-insensitive occurrence. -/
def firstIndicatorHitGo (t : List Char) : List String → Option Nat
  | [] => none
  | w :: ws =>
    match findSub (lowerL t) (lowerL w.data) with
    | none => firstIndicatorHitGo t ws
    | some i => some i

/-- `firstIndicatorHitGo` over the source's indicator list. -/
def firstIndicatorHit (t : List Char) : Option Nat :=
  firstIndicatorHitGo t stopIndicators

/-! ## Theorems

General helper lemmas first, then one theorem per claim (with witnesses
and counterexamples where the claim's status requires them). -/

theorem ltrimBy_length_le' (p : Char → Bool) (cs : List Char) :
    (ltrimBy p cs).length ≤ cs.length := by
  induction cs with
  | nil => simp [ltrimBy]
  | cons a r ih =>
    simp only [ltrimBy]
    split
    · simp only [List.length_cons]
      omega
    · simp

theorem ltrimBy_idem (p : Char → Bool) (cs : List Char) :
    ltrimBy p (ltrimBy p cs) = ltrimBy p cs := by
  induction cs with
  | nil => rfl
  | cons c r ih =>
    simp only [ltrimBy]
    split
    · exact ih
    · simp only [ltrimBy]
      rw [if_neg ‹_›]

theorem ltrimBy_append (p : Char → Bool) (a b : List Char) :
    ltrimBy p (a ++ b) =
      if (ltrimBy p a).isEmpty then ltrimBy p b else ltrimBy p a ++ b := by
  induction a with
  | nil => simp [ltrimBy]
  | cons c r ih =>
    simp only [List.cons_append, ltrimBy]
    split
    · exact ih
    · simp

theorem ltrimBy_head_false (p : Char → Bool) (cs : List Char) (c : Char) (t : List Char)
    (h : ltrimBy p cs = c :: t) : p c = false := by
  induction cs with
  | nil => simp [ltrimBy] at h
  | cons a r ih =>
    simp only [ltrimBy] at h
    split at h
    · exact ih h
    · cases h
      simpa using Bool.of_not_eq_true ‹_›

theorem rtrimBy_head (p : Char → Bool) (c : Char) (t : List Char) (hc : p c = false) :
    rtrimBy p (c :: t) = [] ∨ ∃ t2, rtrimBy p (c :: t) = c :: t2 := by
  unfold rtrimBy
  have hrev : (c :: t).reverse = t.reverse ++ [c] := by simp
  rw [hrev, ltrimBy_append]
  split
  · right
    refine ⟨[], ?_⟩
    simp [ltrimBy, hc]
  · right
    exact ⟨(ltrimBy p t.reverse).reverse, by simp⟩

theorem ltrimBy_fixed_of_head (p : Char → Bool) (c : Char) (t : List Char) (hc : p c = false) :
    ltrimBy p (c :: t) = c :: t := by
  simp [ltrimBy, hc]

theorem rtrimBy_idem (p : Char → Bool) (cs : List Char) :
    rtrimBy p (rtrimBy p cs) = rtrimBy p cs := by
  unfold rtrimBy
  rw [List.reverse_reverse, ltrimBy_idem]

theorem stripBy_idem (p : Char → Bool) (cs : List Char) :
    stripBy p (stripBy p cs) = stripBy p cs := by
  unfold stripBy
  have h1 : ltrimBy p (rtrimBy p (ltrimBy p cs)) = rtrimBy p (ltrimBy p cs) := by
    cases hl : ltrimBy p cs with
    | nil => simp [rtrimBy, ltrimBy]
    | cons c t =>
      have hc := ltrimBy_head_false p cs c t hl
      rcases rtrimBy_head p c t hc with h | ⟨t2, h⟩
      · simp [h, ltrimBy]
      · rw [h, ltrimBy_fixed_of_head p c t2 hc]
  rw [h1, rtrimBy_idem]

theorem pyStrip_idem (cs : List Char) : pyStrip (pyStrip cs) = pyStrip cs :=
  stripBy_idem pyWs cs

theorem string_mk_data (l : List Char) : (String.mk l).data = l := rfl

/-- Claim C10: `clean_html_attributes` returns the empty string on `None`
and on the empty string (falsy input short-circuits), and every returned
value is a fixed point of whitespace stripping. -/
theorem C10_clean_falsy_and_stripped :
    clean_html_attributes none = ""
    ∧ clean_html_attributes (some "") = ""
    ∧ ∀ x : Option String,
        pyStrip (clean_html_attributes x).data = (clean_html_attributes x).data := by
  refine ⟨rfl, rfl, ?_⟩
  intro x
  cases x with
  | none => rfl
  | some s =>
    by_cases h : s.data.isEmpty
    · simp only [clean_html_attributes, h, if_true]
      rfl
    · simp only [clean_html_attributes, h, if_false, Bool.false_eq_true, string_mk_data]
      exact pyStrip_idem _

/-- Claim C3 (counterexample): a text containing the required substring
for which `extract_deadline` returns a different, earlier labelled match. -/
theorem C3_counterexample :
    containsSub "Deadline: 1 May 2030 and Submission deadline: 14 March 2026".data
      "Submission deadline: 14 March 2026".data = true
    ∧ extract_deadline "Deadline: 1 May 2030 and Submission deadline: 14 March 2026"
        = some "1 May 2030"
    ∧ ("1 May 2030" : String) ≠ "14 March 2026" := by
  refine ⟨by decide, by decide, by decide⟩

/-- Claim C3 (amended): `extract_deadline` returns the group-1 capture of
the first match of the highest-priority matching pattern, so a text
containing "Submission deadline: 14 March 2026" yields "14 March 2026"
whenever no earlier occurrence matches the labelled deadline pattern — in
particular whenever the text begins with that substring; the labelled
pattern is tried before the others, and the result is `none` when no
pattern matches. -/
theorem C3_amended :
    (∀ post : List Char,
      extract_deadline
        (String.mk ("Submission deadline: 14 March 2026".data ++ post)) = some "14 March 2026")
    ∧ (∀ t : String, ∀ cap : List Char, searchM jsPat1 none t.data = some cap →
        extract_deadline t = some (String.mk cap))
    ∧ (∀ t : String,
        searchM jsPat1 none t.data = none → searchM jsPat2 none t.data = none →
        searchM jsPat3 none t.data = none → searchM jsPat4 none t.data = none →
        extract_deadline t = none) := by
  refine ⟨fun post => by with_unfolding_all rfl, ?_, ?_⟩
  · intro t cap h
    unfold extract_deadline
    rw [h]
  · intro t h1 h2 h3 h4
    unfold extract_deadline
    rw [h1, h2, h3, h4]

/-- Witness for C3: the amended theorem applied at concrete inputs. -/
theorem C3_amended_witness :
    extract_deadline "deadline: 2 May 2027" = some "2 May 2027"
    ∧ extract_deadline "no dates at all" = none :=
  ⟨C3_amended.2.1 "deadline: 2 May 2027" "2 May 2027".data (by decide),
   C3_amended.2.2 "no dates at all" (by decide) (by decide) (by decide) (by decide)⟩

theorem indicatorLoop_first_low (t : List Char) (ws : List String) (i : Nat)
    (h : firstIndicatorHitGo t ws = some i) (hi : i < 3) :
    indicatorLoop t ws = none := by
  induction ws with
  | nil => simp [firstIndicatorHitGo] at h
  | cons w rest ih =>
    simp only [firstIndicatorHitGo] at h
    simp only [indicatorLoop]
    cases hf : findSub (lowerL t) (lowerL w.data) with
    | none =>
      rw [hf] at h
      exact ih h
    | some j =>
      rw [hf] at h
      cases h
      simp [hi]

/-- Claim C6 (amended): when the first stop indicator found by the
ordered scan of the normalised input (entity-replaced, stripped,
whitespace-collapsed) occurs at an index under 3, `extract_pure_name`
returns the empty string. -/
theorem C6_amended (s : String) (i : Nat)
    (h : firstIndicatorHit (pureNameNormalize s.data) = some i) (hi : i < 3) :
    extract_pure_name s = "" := by
  unfold extract_pure_name
  rw [indicatorLoop_first_low _ _ _ h hi]

/-- Witness for C6: the amended theorem at a concrete labelled input. -/
theorem C6_amended_witness :
    firstIndicatorHit (pureNameNormalize "Department of X".data) = some 0
    ∧ extract_pure_name "Department of X" = "" :=
  ⟨by decide, C6_amended "Department of X" 0 (by decide) (by decide)⟩

/-- Claim C6 (counterexample): inputs with a stop indicator at index
under 3 on which `extract_pure_name` returns a non-empty name — leading
whitespace is stripped before the scan (`" of x"`), and an
earlier-listed indicator can truncate away a later-listed one
(`"xy of at z"`: `" at "` truncates before `" of "` is looked up). -/
theorem C6_counterexample :
    (" of " : String) ∈ stopIndicators
    ∧ findSub (lowerL " of x".data) (lowerL " of ".data) = some 0
    ∧ extract_pure_name " of x" = "of x"
    ∧ findSub (lowerL "xy of at z".data) (lowerL " of ".data) = some 2
    ∧ extract_pure_name "xy of at z" = "xy of"
    ∧ ("of x" : String) ≠ "" := by
  refine ⟨by decide, by decide, by decide, by decide, by decide, by decide⟩

/-- Claim C5 (counterexample): a journal name containing "remote sensing"
that does not resolve to the RSE/BAE parser, because the "cities" branch
is checked first. -/
theorem C5_counterexample :
    containsSub (lowerL "Remote Sensing Cities".data) "remote sensing".data = true
    ∧ getParser "Remote Sensing Cities" ≠ parse_rse_sciencedirect := by
  refine ⟨by decide, ?_⟩
  intro h
  have hcit : getParser "Remote Sensing Cities" = parse_cities_sciencedirect := by
    with_unfolding_all rfl
  rw [hcit] at h
  have h2 := congrArg (fun f => (f (some ([] : Doc))).deadline) h
  simp only at h2
  have : ("Check Link" : String) = "Unknown" := by
    calc ("Check Link" : String) = (parse_cities_sciencedirect (some ([] : Doc))).deadline := by decide
    _ = (parse_rse_sciencedirect (some ([] : Doc))).deadline := h2
    _ = "Unknown" := by decide
  exact absurd this (by decide)

/-- Claim C5 (amended): `getParser` is total and returns one of the two
parser variants; a name containing "cities" (case-insensitively) gets the
Cities variant — this branch has priority — and every name not containing
"cities" (including all "remote sensing" / "building and environment"
names and all unrecognised names) gets the RSE/BAE variant, which is also
the default. -/
theorem C5_amended :
    (∀ name : String,
      getParser name = parse_cities_sciencedirect ∨ getParser name = parse_rse_sciencedirect)
    ∧ (∀ name : String, containsSub (lowerL name.data) "cities".data = true →
        getParser name = parse_cities_sciencedirect)
    ∧ (∀ name : String, containsSub (lowerL name.data) "cities".data = false →
        getParser name = parse_rse_sciencedirect) := by
  refine ⟨?_, ?_, ?_⟩
  · intro name
    unfold getParser
    split
    · exact Or.inl rfl
    · split
      · exact Or.inr rfl
      · exact Or.inr rfl
  · intro name hc
    unfold getParser
    rw [if_pos hc]
  · intro name hc
    unfold getParser
    rw [if_neg (by simp [hc])]
    split
    · rfl
    · rfl

/-- Witness for C5: the amended theorem at concrete journal names. -/
theorem C5_amended_witness :
    getParser "Cities" = parse_cities_sciencedirect
    ∧ getParser "Some New Journal" = parse_rse_sciencedirect :=
  ⟨C5_amended.2.1 "Cities" (by decide), C5_amended.2.2 "Some New Journal" (by decide)⟩

/-- Claim C1 (amended): in `parse_rse_sciencedirect` the stop trigger has
highest priority — a leaf block of at least 3 characters whose text
contains "manuscript submission" or "keywords:" ends the walk at once
with the accumulators unchanged, regardless of any other trigger phrase
in the same block.  In `extract_details` the guest-editors and
special-issue-information triggers are checked first, so the stop phrase
ends the walk only when neither of those fires on the same block; when
the stop check is reached, iteration ends immediately and no later block
contributes. -/
theorem C1_amended :
    (∀ (mode : WalkMode) (eds descs : List (List Char)) (n : Node) (rest : List Node),
      hasElemNamed ["p", "div", "ul", "ol"] (nodeChildren n) = false →
      ¬ (getTextN " ".data true n).length < 3 →
      (containsSub (lowerL (getTextN " ".data true n)) "manuscript submission".data
        || containsSub (lowerL (getTextN " ".data true n)) "keywords:".data) = true →
      rseWalk mode eds descs (n :: rest) = (eds, descs))
    ∧ (∀ (mode : WalkMode) (eds descs : List (List Char)) (n : Node) (rest : List Node),
      isElem n = true →
      (containsSub (lowerL (getTextN [] true n)) "guest editors".data
        && decide ((getTextN [] true n).length < 50)) = false →
      (containsSub (lowerL (getTextN [] true n)) "special issue information".data
        && decide ((getTextN [] true n).length < 100)) = false →
      (containsSub (lowerL (getTextN [] true n)) "manuscript submission".data
        || containsSub (lowerL (getTextN [] true n)) "keywords:".data) = true →
      edWalk mode eds descs (n :: rest) = (eds, descs)) := by
  constructor
  · intro mode eds descs n rest hch hlen htrig
    simp [rseWalk, hch, hlen, htrig]
  · intro mode eds descs n rest hel hg hs htrig
    simp [edWalk, hel, hg, hs, htrig]

/-- Witness for C1: the amended stop behaviour at concrete blocks. -/
theorem C1_amended_witness :
    rseWalk WalkMode.description [] []
      [Node.elem "p" [] [Node.text "Keywords: urban topics".data],
       Node.elem "p" [] [Node.text "later content".data]] = ([], [])
    ∧ edWalk WalkMode.description [] []
      [Node.elem "p" [] [Node.text "Manuscript submission details here".data],
       Node.elem "p" [] [Node.text "later block".data]] = ([], []) :=
  ⟨C1_amended.1 WalkMode.description [] [] _ _ (by decide) (by decide) (by decide),
   C1_amended.2 WalkMode.description [] [] _ _ (by decide) (by decide) (by decide) (by decide)⟩

/-- Claim C1 (counterexample): in `extract_details`, a sibling block
whose text contains both "guest editors" (under 50 characters) and
"manuscript submission" does not stop the walk — it switches to editors
mode, and the following block is consumed as an editor name. -/
theorem C1_counterexample :
    containsSub (lowerL "guest editors manuscript submission".data)
      "manuscript submission".data = true
    ∧ "guest editors manuscript submission".data.length < 50
    ∧ extract_details (some stopConflictDoc) =
        { deadline := "30 June 2026", editors := "Jane Doe",
          description := "Detailed description available on the official website." } := by
  refine ⟨by decide, by decide, by decide⟩

/-- Claim C4 (amended): on missing input and on anchor mismatch every
parser returns its sentinel triple without raising; the deadline sentinel
is one of "Unknown"/"Check Link"/"Check Detail" and the editors sentinel
one of "Unknown"/"See website"/"Editors info not found.", as claimed, but
the description sentinel is the fixed placeholder sentence only in
`extract_details` — the `parsers.py` fallbacks use the empty string. -/
theorem C4_amended :
    extract_details none = { deadline := "Unknown", editors := "Unknown", description := "" }
    ∧ parse_rse_sciencedirect none = default_fallback
    ∧ parse_cities_sciencedirect none = default_fallback
    ∧ (∀ doc : Doc, findAnchorL [] (removeNamesL edNoise doc) = none →
        extract_details (some doc) =
          { deadline := "Check Detail", editors := "Editors info not found.",
            description := "Detailed description available on the official website." })
    ∧ (∀ doc : Doc, rseElements (removeNamesL rseNoise doc) = none →
        parse_rse_sciencedirect (some doc) = default_fallback) := by
  refine ⟨rfl, rfl, rfl, ?_, ?_⟩
  · intro doc h
    simp only [extract_details, h]
    rfl
  · intro doc h
    simp only [parse_rse_sciencedirect, h]

/-- Witness for C4: the amended theorem at the empty document. -/
theorem C4_amended_witness :
    extract_details (some ([] : Doc)) =
      { deadline := "Check Detail", editors := "Editors info not found.",
        description := "Detailed description available on the official website." }
    ∧ parse_rse_sciencedirect (some ([] : Doc)) = default_fallback :=
  ⟨C4_amended.2.2.2.1 [] rfl, C4_amended.2.2.2.2 [] rfl⟩

/-- Claim C4 (counterexample): on missing input the description field of
the fallback record is the empty string, not a placeholder sentence. -/
theorem C4_counterexample :
    (extract_details none).description = ""
    ∧ (parse_rse_sciencedirect none).description = ""
    ∧ ("" : String) ≠ "Detailed description available on the official website." := by
  refine ⟨rfl, rfl, by decide⟩

/-- Claim C9: in `extract_details`, when no string containing
"Submission deadline" is found after noise removal, or when the located
string has no `div`/`p` ancestor, the sibling walk never runs: the
editors field is the sentinel and the description field is the
placeholder sentence, regardless of the rest of the document. -/
theorem C9_anchor_gate (doc : Doc)
    (h : findAnchorL [] (removeNamesL edNoise doc) = none
       ∨ ∃ stack, findAnchorL [] (removeNamesL edNoise doc) = some stack
           ∧ ∀ f ∈ stack, f.name ≠ "div" ∧ f.name ≠ "p") :
    (extract_details (some doc)).editors = "Editors info not found."
    ∧ (extract_details (some doc)).description =
        "Detailed description available on the official website." := by
  rcases h with h | ⟨stack, h, hall⟩
  · simp only [extract_details, h]
    exact ⟨rfl, rfl⟩
  · have hnone : stack.tail.find? (fun f => ["div", "p"].contains f.name) = none := by
      apply List.find?_eq_none.mpr
      intro f hf
      have hm : f ∈ stack := List.mem_of_mem_tail hf
      rcases hall f hm with ⟨h1, h2⟩
      simp [h1, h2]
    simp only [extract_details, h, hnone]
    exact ⟨rfl, rfl⟩

/-- Witness for C9: the gate theorem at a document whose deadline string
sits inside a `span` with no `div`/`p` ancestor. -/
theorem C9_anchor_gate_witness :
    (extract_details (some gateDoc)).editors = "Editors info not found."
    ∧ (extract_details (some gateDoc)).description =
        "Detailed description available on the official website." :=
  C9_anchor_gate gateDoc (Or.inr ⟨_, rfl, by
    intro f hf
    rw [List.mem_singleton] at hf
    subst hf
    exact ⟨by decide, by decide⟩⟩)

theorem parse_journal_go_eq (fetch : String → Option Doc) (today : String)
    (links : List Node) :
    ∀ seen, parse_journal_go fetch today seen links =
      dedupByKeyGo (fun r => r.url) seen (journalCandidates fetch today links) := by
  induction links with
  | nil => intro seen; rfl
  | cons link rest ih =>
    intro seen
    simp only [parse_journal_go, journalCandidates]
    cases h : getAttr link "href" with
    | none => exact ih seen
    | some url0 =>
      by_cases ht : ((getTextN [] true link).isEmpty || url0.data.isEmpty) = true
      · simp only [ht, if_true]
        exact ih seen
      · simp only [ht, if_false, Bool.false_eq_true, dedupByKeyGo]
        set u := (if leadsWith url0.data "http".data then url0
          else String.mk ("https://www.sciencedirect.com".data ++ url0.data)) with hu
        by_cases hc : seen.contains u = true
        · rw [if_pos hc, if_pos hc]
          exact ih seen
        · rw [if_neg hc, if_neg hc, ih]

theorem dedupByKeyGo_urls (key : IssueRecord → String) (l : List IssueRecord) :
    ∀ seen : List String, ((dedupByKeyGo key seen l).map key).Nodup
      ∧ ∀ u ∈ (dedupByKeyGo key seen l).map key, u ∉ seen := by
  induction l with
  | nil => intro seen; simp [dedupByKeyGo]
  | cons r rest ih =>
    intro seen
    by_cases h : seen.contains (key r) = true
    · simp only [dedupByKeyGo, h, if_true]
      exact ih seen
    · simp only [dedupByKeyGo, h, if_false, Bool.false_eq_true, List.map_cons]
      obtain ⟨hnd, hns⟩ := ih (key r :: seen)
      have hkr : key r ∉ seen := by
        intro hmem
        exact absurd (List.elem_iff.mpr hmem) (by simpa using h)
      refine ⟨List.nodup_cons.mpr ⟨fun hmem => ?_, hnd⟩, ?_⟩
      · exact absurd (hns _ hmem) (by simp)
      · intro u hu
        rcases List.mem_cons.mp hu with rfl | hu2
        · exact hkr
        · intro hmem
          exact hns u hu2 (List.mem_cons_of_mem _ hmem)

/-- Claim C7 (amended): the de-duplication of `parse_journal` is stable
and order-preserving with the first occurrence winning, but it is keyed
by the absolutised detail-page URL, not by the normalised title: the loop
equals the textbook first-wins de-duplicator keyed on `url` applied to
the un-deduplicated candidate records, and the emitted URLs are unique —
records with distinct URLs are all kept even when their titles coincide
after normalisation. -/
theorem C7_amended :
    (∀ (fetch : String → Option Doc) (today : String) (seen : List String) (links : List Node),
      parse_journal_go fetch today seen links =
        dedupByKeyGo (fun r => r.url) seen (journalCandidates fetch today links))
    ∧ (∀ (soup : Option Doc) (fetch : String → Option Doc) (today : String),
        ((parse_journal soup fetch today).map (fun r => r.url)).Nodup) := by
  constructor
  · intro fetch today seen links
    exact parse_journal_go_eq fetch today links seen
  · intro soup fetch today
    cases soup with
    | none => simp [parse_journal]
    | some doc =>
      simp only [parse_journal]
      rw [parse_journal_go_eq]
      exact (dedupByKeyGo_urls (fun r => r.url) _ []).1

/-- Claim C7 (counterexample): two candidate links whose titles agree
after lower-casing and trimming but whose URLs differ produce two
records, not one — the key is the URL, not the normalised title. -/
theorem C7_counterexample :
    (parse_journal (some dedupListingDoc) (fun _ => none) "2026-01-01").map (fun r => r.title)
      = ["Climate Risk", "climate risk"]
    ∧ lowerL (pyStrip "Climate Risk".data) = lowerL (pyStrip "climate risk ".data) := by
  refine ⟨by decide, by decide⟩

theorem leadsWith_site_prefix (u : List Char) :
    leadsWith ("https://www.sciencedirect.com".data ++ u) "http".data = true := by
  with_unfolding_all rfl

theorem parse_journal_go_inv (fetch : String → Option Doc) (today : String)
    (links : List Node) :
    ∀ seen r, r ∈ parse_journal_go fetch today seen links →
      r.title ≠ "" ∧ leadsWith r.url.data "http".data = true := by
  induction links with
  | nil =>
    intro seen r h
    simp [parse_journal_go] at h
  | cons link rest ih =>
    intro seen r h
    simp only [parse_journal_go] at h
    cases hh : getAttr link "href" with
    | none =>
      simp only [hh] at h
      exact ih seen r h
    | some url0 =>
      simp only [hh] at h
      by_cases ht : ((getTextN [] true link).isEmpty || url0.data.isEmpty) = true
      · rw [if_pos ht] at h
        exact ih seen r h
      · rw [if_neg ht] at h
        have htitle : getTextN [] true link ≠ [] := by
          intro hx
          exact ht (by simp [hx])
        set u := (if leadsWith url0.data "http".data then url0
          else String.mk ("https://www.sciencedirect.com".data ++ url0.data)) with hu
        have hu_http : leadsWith u.data "http".data = true := by
          rw [hu]
          by_cases hl : leadsWith url0.data "http".data = true
          · simp only [hl, if_true]
          · simp only [hl, if_false, Bool.false_eq_true]
            exact leadsWith_site_prefix url0.data
        by_cases hc : seen.contains u = true
        · rw [if_pos hc] at h
          exact ih _ r h
        · rw [if_neg hc] at h
          rcases List.mem_cons.mp h with rfl | h2
          · refine ⟨?_, hu_http⟩
            intro hcontra
            exact htitle (by simpa using congrArg String.data hcontra)
          · exact ih _ r h2

/-- Claim C8 (amended): every record emitted by `parse_journal` has a
non-empty title and a URL starting with "http" (links with empty titles
or missing hrefs are skipped and relative hrefs are prefixed with the
site origin); the invariant does not extend to
`JournalScraper.extract_issue_info`, which can emit a record whose URL is
`None` or the empty string when the candidate link lacks a usable
`href`. -/
theorem C8_amended (soup : Option Doc) (fetch : String → Option Doc) (today : String)
    (r : IssueRecord) (h : r ∈ parse_journal soup fetch today) :
    r.title ≠ "" ∧ leadsWith r.url.data "http".data = true := by
  cases soup with
  | none => simp [parse_journal] at h
  | some doc =>
    simp only [parse_journal] at h
    exact parse_journal_go_inv fetch today _ [] r h

/-- Witness for C8: the invariant applied to a concrete emitted record. -/
theorem C8_amended_witness :
    ("Climate Risk" : String) ≠ ""
    ∧ leadsWith "https://www.sciencedirect.com/special-issue/a".data "http".data = true :=
  C8_amended (some dedupListingDoc) (fun _ => none) "2026-01-01"
    { title := "Climate Risk", url := "https://www.sciencedirect.com/special-issue/a",
      deadline := "Unknown", guest_editors := "Unknown", description := "",
      last_updated := "2026-01-01" }
    (by decide)

/-- Claim C8 (counterexample): `extract_issue_info` emits records into
the journal's result sequence whose URL is `None` (href-less link) or the
empty string (empty href), neither of which is a syntactically absolute
URL. -/
theorem C8_counterexample :
    ((extract_issue_info hreflessElem none "https://x").map (fun i => i.url)) = some none
    ∧ ((extract_issue_info emptyHrefElem none "https://x").map (fun i => i.url)) = some (some "")
    ∧ leadsWith "".data "http".data = false := by
  refine ⟨by decide, by decide, by decide⟩

/-! ### Escaped text and trimming (towards C2) -/

theorem escChar_not_lt (c : Char) : '<' ∉ escChar c := by
  unfold escChar
  split
  · decide
  · split
    · decide
    · split
      · decide
      · intro h
        rcases List.mem_singleton.mp h with rfl
        simp at *

theorem escChar_ne_nil (c : Char) : escChar c ≠ [] := by
  unfold escChar
  split
  · decide
  · split
    · decide
    · split
      · decide
      · simp

theorem escChar_ws (c : Char) (h : pyWs c = true) : escChar c = [c] := by
  unfold escChar
  have h1 : c ≠ '&' := fun hc => by subst hc; simp [pyWs] at h
  have h2 : c ≠ '<' := fun hc => by subst hc; simp [pyWs] at h
  have h3 : c ≠ '>' := fun hc => by subst hc; simp [pyWs] at h
  simp [h1, h2, h3]

theorem escapeText_append (a b : List Char) :
    escapeText (a ++ b) = escapeText a ++ escapeText b := by
  induction a with
  | nil => rfl
  | cons c r ih => simp [escapeText, ih]

theorem escapeText_eq_nil_iff (s : List Char) : escapeText s = [] ↔ s = [] := by
  cases s with
  | nil => simp [escapeText]
  | cons c r =>
    simp only [escapeText]
    constructor
    · intro h
      exact absurd (List.append_eq_nil.mp h).1 (escChar_ne_nil c)
    · intro h
      simp at h

theorem escapeText_head (s : List Char) (hs : s ≠ []) :
    ∃ d ds, escapeText s = d :: ds ∧ d ≠ '<' := by
  cases s with
  | nil => exact absurd rfl hs
  | cons c r =>
    simp only [escapeText]
    cases he : escChar c with
    | nil => exact absurd he (escChar_ne_nil c)
    | cons d ds =>
      refine ⟨d, ds ++ escapeText r, by simp, ?_⟩
      intro hd
      subst hd
      exact escChar_not_lt c (he ▸ List.mem_cons_self _ _)

theorem ltrimBy_escChar_not_ws (c : Char) (hc : pyWs c = false) (x : List Char) :
    ltrimBy pyWs (escChar c ++ x) = escChar c ++ x := by
  by_cases h1 : c = '&'
  · subst h1; rfl
  · by_cases h2 : c = '<'
    · subst h2; rfl
    · by_cases h3 : c = '>'
      · subst h3; rfl
      · simp only [escChar, h1, h2, h3, if_neg, if_false]
        simp [ltrimBy, hc]

theorem ltrim_escape (s rest : List Char) :
    ltrimBy pyWs (escapeText s ++ rest) =
      if (ltrimBy pyWs s).isEmpty then ltrimBy pyWs rest
      else escapeText (ltrimBy pyWs s) ++ rest := by
  induction s with
  | nil => simp [escapeText, ltrimBy]
  | cons c r ih =>
    by_cases hc : pyWs c = true
    · rw [show escapeText (c :: r) = escChar c ++ escapeText r from rfl, escChar_ws c hc]
      simp only [List.singleton_append, List.cons_append, List.nil_append]
      rw [show ltrimBy pyWs (c :: (escapeText r ++ rest)) = ltrimBy pyWs (escapeText r ++ rest)
        from by simp [ltrimBy, hc]]
      rw [show ltrimBy pyWs (c :: r) = ltrimBy pyWs r from by simp [ltrimBy, hc]]
      exact ih
    · have hc2 : pyWs c = false := by simpa using hc
      rw [show escapeText (c :: r) = escChar c ++ escapeText r from rfl]
      rw [List.append_assoc, ltrimBy_escChar_not_ws c hc2]
      rw [ltrimBy_fixed_of_head pyWs c r hc2]
      simp [escapeText]

theorem rtrimBy_append (p : Char → Bool) (a b : List Char) :
    rtrimBy p (a ++ b) =
      if (rtrimBy p b).isEmpty then rtrimBy p a else a ++ rtrimBy p b := by
  unfold rtrimBy
  rw [List.reverse_append, ltrimBy_append]
  by_cases h : (ltrimBy p b.reverse).isEmpty = true
  · rw [if_pos h, if_pos (by simpa [List.isEmpty_iff] using h)]
  · rw [if_neg h, if_neg (by simpa [List.isEmpty_iff] using h)]
    simp

theorem rtrimBy_singleton (p : Char → Bool) (c : Char) :
    rtrimBy p [c] = if p c then [] else [c] := by
  unfold rtrimBy
  simp only [List.reverse_singleton, ltrimBy]
  split
  · rfl
  · rfl

theorem rtrimBy_fixed_of_last (p : Char → Bool) (y : List Char) (c : Char) (hc : p c = false) :
    rtrimBy p (y ++ [c]) = y ++ [c] := by
  rw [rtrimBy_append, rtrimBy_singleton]
  simp [hc]

theorem rtrimBy_escChar_not_ws (c : Char) (hc : pyWs c = false) :
    rtrimBy pyWs (escChar c) = escChar c := by
  by_cases h1 : c = '&'
  · subst h1; rfl
  · by_cases h2 : c = '<'
    · subst h2; rfl
    · by_cases h3 : c = '>'
      · subst h3; rfl
      · simp only [escChar, h1, h2, h3, if_neg, if_false]
        rw [rtrimBy_singleton, if_neg (by simp [hc])]

theorem rtrimBy_escape (s : List Char) :
    rtrimBy pyWs (escapeText s) = escapeText (rtrimBy pyWs s) := by
  induction s with
  | nil => rfl
  | cons c r ih =>
    rw [show escapeText (c :: r) = escChar c ++ escapeText r from rfl, rtrimBy_append]
    rw [show (c :: r : List Char) = [c] ++ r from rfl, rtrimBy_append]
    have hiff : (rtrimBy pyWs (escapeText r)).isEmpty = (rtrimBy pyWs r).isEmpty := by
      rw [ih]
      cases hr : rtrimBy pyWs r with
      | nil => rfl
      | cons d ds =>
        obtain ⟨e, es, hee, _⟩ := escapeText_head (d :: ds) (by simp)
        rw [hee]
        rfl
    by_cases h : (rtrimBy pyWs r).isEmpty = true
    · rw [if_pos (by rw [hiff]; exact h), if_pos h, rtrimBy_singleton]
      by_cases hc : pyWs c = true
      · rw [escChar_ws c hc, rtrimBy_singleton, if_pos hc]
        rfl
      · have hc2 : pyWs c = false := by simpa using hc
        rw [rtrimBy_escChar_not_ws c hc2, if_neg hc]
        simp [escapeText]
    · rw [if_neg (by rw [hiff]; exact h), if_neg h, ih]
      rw [show ([c] ++ rtrimBy pyWs r : List Char) = c :: rtrimBy pyWs r from rfl]
      rw [show escapeText (c :: rtrimBy pyWs r) = escChar c ++ escapeText (rtrimBy pyWs r) from rfl]

theorem renderN_elem_head (nm : String) (a : List (String × String)) (cs : List Node) :
    ∃ t, renderN (.elem nm a cs) = '<' :: t := by
  unfold renderN
  split
  · exact ⟨_, rfl⟩
  · exact ⟨_, rfl⟩

theorem renderN_elem_ne_nil (nm : String) (a : List (String × String)) (cs : List Node) :
    renderN (.elem nm a cs) ≠ [] := by
  obtain ⟨t, ht⟩ := renderN_elem_head nm a cs
  simp [ht]

theorem renderN_elem_last (nm : String) (a : List (String × String)) (cs : List Node) :
    ∃ y, renderN (.elem nm a cs) = y ++ ['>'] := by
  unfold renderN
  split
  · exact ⟨'<' :: (nm.data ++ renderAttrs a ++ ['/']), by simp⟩
  · exact ⟨'<' :: (nm.data ++ renderAttrs a ++ '>' :: (renderL cs ++ '<' :: '/' :: nm.data)),
      by simp⟩

theorem forestGT_tail (n : Node) (r : List Node) (h : forestGT (n :: r) = true) :
    forestGT r = true := by
  cases r with
  | nil => rfl
  | cons b r2 =>
    simp only [forestGT, Bool.and_eq_true] at h
    exact h.2

theorem forestGT_head (n : Node) (r : List Node) (h : forestGT (n :: r) = true) :
    nodeGT n = true := by
  cases r with
  | nil => simpa [forestGT] using h
  | cons b r2 =>
    simp only [forestGT, Bool.and_eq_true] at h
    exact h.1.1

theorem forestGT_not_adj (n b : Node) (r2 : List Node)
    (h : forestGT (n :: b :: r2) = true) : (isText n && isText b) = false := by
  simp only [forestGT, Bool.and_eq_true] at h
  cases hn : isText n
  · simp
  · cases hb : isText b
    · simp
    · exfalso
      have h2 := h.1.2
      rw [hn, hb] at h2
      simp at h2

theorem ltrim_render (ns : List Node) (hgt : forestGT ns = true) :
    ltrimBy pyWs (renderL ns) = renderL (ltrimNodes ns) := by
  cases ns with
  | nil => rfl
  | cons n r =>
    cases n with
    | elem nm a cs =>
      obtain ⟨t, ht⟩ := renderN_elem_head nm a cs
      show ltrimBy pyWs (renderN (.elem nm a cs) ++ renderL r) = renderL (.elem nm a cs :: r)
      rw [ht, List.cons_append, ltrimBy_fixed_of_head pyWs '<' _ (by decide),
        ← List.cons_append, ← ht]
      rfl
    | text s =>
      show ltrimBy pyWs (escapeText s ++ renderL r) = renderL (ltrimNodes (.text s :: r))
      rw [ltrim_escape]
      by_cases h : (ltrimBy pyWs s).isEmpty = true
      · rw [if_pos h]
        simp only [ltrimNodes, h, if_pos]
        cases r with
        | nil => rfl
        | cons b r2 =>
          have hb : isText b = false := by
            have := forestGT_not_adj (.text s) b r2 hgt
            simpa [isText] using this
          cases b with
          | text t => simp [isText] at hb
          | elem nm a cs =>
            obtain ⟨t, ht⟩ := renderN_elem_head nm a cs
            show ltrimBy pyWs (renderN (.elem nm a cs) ++ renderL r2) =
              renderL (ltrimNodes (.elem nm a cs :: r2))
            rw [ht, List.cons_append, ltrimBy_fixed_of_head pyWs '<' _ (by decide),
              ← List.cons_append, ← ht]
            rfl
      · rw [if_neg h]
        simp only [ltrimNodes, h, if_neg, if_false, Bool.false_eq_true]
        rfl

theorem rtrim_render (ns : List Node) (hgt : forestGT ns = true) :
    rtrimBy pyWs (renderL ns) = renderL (rtrimNodes ns) := by
  induction ns with
  | nil => rfl
  | cons n r ih =>
    cases r with
    | nil =>
      cases n with
      | text s =>
        show rtrimBy pyWs (escapeText s ++ renderL []) = renderL (rtrimNodes [.text s])
        simp only [renderL, List.append_nil, rtrimNodes]
        rw [rtrimBy_escape]
        by_cases h : (rtrimBy pyWs s).isEmpty = true
        · have h0 : rtrimBy pyWs s = [] := by simpa [List.isEmpty_iff] using h
          simp [h, h0, escapeText, renderL]
        · simp only [h, if_neg, if_false, Bool.false_eq_true]
          simp [renderL, renderN]
      | elem nm a cs =>
        show rtrimBy pyWs (renderN (.elem nm a cs) ++ renderL []) =
          renderL (rtrimNodes [.elem nm a cs])
        obtain ⟨y, hy⟩ := renderN_elem_last nm a cs
        simp only [renderL, List.append_nil, rtrimNodes]
        rw [hy, rtrimBy_fixed_of_last pyWs y '>' (by decide), ← hy]
    | cons b r2 =>
      have hgtr : forestGT (b :: r2) = true := forestGT_tail n _ hgt
      show rtrimBy pyWs (renderN n ++ renderL (b :: r2)) = renderL (n :: rtrimNodes (b :: r2))
      rw [rtrimBy_append, ih hgtr]
      by_cases h : (renderL (rtrimNodes (b :: r2))).isEmpty = true
      · rw [if_pos h]
        have h0 : renderL (rtrimNodes (b :: r2)) = [] := by simpa [List.isEmpty_iff] using h
        show rtrimBy pyWs (renderN n) = renderL (n :: rtrimNodes (b :: r2))
        simp only [renderL, h0, List.append_nil]
        cases n with
        | elem nm a cs =>
          obtain ⟨y, hy⟩ := renderN_elem_last nm a cs
          rw [hy, rtrimBy_fixed_of_last pyWs y '>' (by decide)]
        | text s =>
          exfalso
          have hb : isText b = false := by
            have := forestGT_not_adj (.text s) b r2 hgt
            simpa [isText] using this
          cases b with
          | text t => simp [isText] at hb
          | elem nm a cs =>
            cases r2 with
            | nil =>
              simp only [rtrimNodes, renderL, List.append_nil] at h0
              exact renderN_elem_ne_nil nm a cs h0
            | cons d r3 =>
              simp only [rtrimNodes, renderL] at h0
              exact renderN_elem_ne_nil nm a cs (List.append_eq_nil.mp h0).1
      · rw [if_neg h]
        rfl

/-! ### Coalescing lemmas (towards C2) -/

theorem headIsText_cons (b : Node) (r : List Node) : headIsText (b :: r) = isText b := by
  cases b <;> rfl

theorem forestGT_cons_of (n : Node) (l : List Node) (hn : nodeGT n = true)
    (hl : forestGT l = true) (hadj : (isText n && headIsText l) = false) :
    forestGT (n :: l) = true := by
  cases l with
  | nil => simpa [forestGT] using hn
  | cons b r2 =>
    rw [headIsText_cons] at hadj
    simp [forestGT, hn, hl, hadj]

theorem render_consText (s : List Char) (l : List Node) :
    renderL (consText s l) = escapeText s ++ renderL l := by
  unfold consText
  by_cases hs : s.isEmpty = true
  · have : s = [] := by simpa [List.isEmpty_iff] using hs
    subst this
    simp [escapeText]
  · rw [if_neg hs]
    match l with
    | [] => rfl
    | .text t :: r =>
      show renderL (.text (s ++ t) :: r) = escapeText s ++ renderL (.text t :: r)
      show escapeText (s ++ t) ++ renderL r = escapeText s ++ (escapeText t ++ renderL r)
      rw [escapeText_append, List.append_assoc]
    | .elem nm a cs :: r => rfl

theorem textAllWs_append (a b : List Char) :
    textAllWs (a ++ b) = (textAllWs a && textAllWs b) := by
  simp [textAllWs, List.all_append]

theorem consText_ws (s : List Char) (l : List Node) :
    forestTextWs (consText s l) = (textAllWs s && forestTextWs l) := by
  unfold consText
  by_cases hs : s.isEmpty = true
  · have : s = [] := by simpa [List.isEmpty_iff] using hs
    subst this
    simp [textAllWs]
  · rw [if_neg hs]
    match l with
    | [] => simp [forestTextWs, nodeTextWs]
    | .text t :: r =>
      show forestTextWs (.text (s ++ t) :: r) = _
      simp [forestTextWs, nodeTextWs, textAllWs_append, Bool.and_assoc]
    | .elem nm a cs :: r =>
      show forestTextWs (.text s :: .elem nm a cs :: r) = _
      simp [forestTextWs, nodeTextWs, Bool.and_assoc]

theorem consText_GT (s : List Char) (l : List Node) (h : forestGT l = true) :
    forestGT (consText s l) = true := by
  unfold consText
  by_cases hs : s.isEmpty = true
  · rw [if_pos hs]
    exact h
  · rw [if_neg hs]
    match l with
    | [] =>
      simp only [forestGT, nodeGT]
      simpa using hs
    | .text t :: r =>
      have hgt : forestGT (.text t :: r) = true := h
      apply forestGT_cons_of
      · show (!(s ++ t).isEmpty) = true
        cases s with
        | nil => simp at hs
        | cons c s2 => rfl
      · exact forestGT_tail _ _ hgt
      · cases r with
        | nil => rfl
        | cons b r2 =>
          rw [headIsText_cons]
          have := forestGT_not_adj (.text t) b r2 hgt
          simpa [isText] using this
    | .elem nm a cs :: r =>
      apply forestGT_cons_of
      · show (!s.isEmpty) = true
        simpa using hs
      · exact h
      · simp [isText, headIsText]

mutual

theorem coal_GT_N : ∀ n : Node, isElem n = true → nodeGT (coalN n) = true
  | .text _, h => by simp [isElem] at h
  | .elem nm a cs, _ => by
    show nodeGT (.elem nm a (coalL cs)) = true
    show forestGT (coalL cs) = true
    exact coal_GT_L cs

theorem coal_GT_L : ∀ ns : List Node, forestGT (coalL ns) = true
  | [] => rfl
  | .text s :: r => by
    show forestGT (consText s (coalL r)) = true
    exact consText_GT s _ (coal_GT_L r)
  | .elem nm a cs :: r => by
    show forestGT (coalN (.elem nm a cs) :: coalL r) = true
    apply forestGT_cons_of
    · exact coal_GT_N _ rfl
    · exact coal_GT_L r
    · simp [coalN, isText]

end

mutual

theorem coal_ws_N : ∀ n : Node, nodeTextWs (coalN n) = nodeTextWs n
  | .text s => rfl
  | .elem nm a cs => by
    show forestTextWs (coalL cs) = forestTextWs cs
    exact coal_ws_L cs

theorem coal_ws_L : ∀ ns : List Node, forestTextWs (coalL ns) = forestTextWs ns
  | [] => rfl
  | .text s :: r => by
    show forestTextWs (consText s (coalL r)) = forestTextWs (.text s :: r)
    rw [consText_ws]
    show _ = (textAllWs s && forestTextWs r)
    rw [coal_ws_L r]
  | .elem nm a cs :: r => by
    show forestTextWs (coalN (.elem nm a cs) :: coalL r) = forestTextWs (.elem nm a cs :: r)
    show (nodeTextWs (coalN (.elem nm a cs)) && forestTextWs (coalL r)) = _
    rw [coal_ws_N, coal_ws_L]
    rfl

end

mutual

theorem coal_norm_N : ∀ n : Node, nodeNormal n = true → nodeNormal (coalN n) = true
  | .text _, _ => rfl
  | .elem nm a cs, h => by
    show nodeNormal (.elem nm a (coalL cs)) = true
    simp only [nodeNormal, Bool.and_eq_true] at h ⊢
    refine ⟨⟨⟨h.1.1.1, h.1.1.2⟩, ?_⟩, coal_norm_L cs h.2⟩
    rw [coal_ws_L]
    exact h.1.2

theorem coal_norm_L : ∀ ns : List Node, forestNormal ns = true → forestNormal (coalL ns) = true
  | [], _ => rfl
  | .text s :: r, h => by
    show forestNormal (consText s (coalL r)) = true
    have hr : forestNormal (coalL r) = true := by
      apply coal_norm_L
      simpa [forestNormal, nodeNormal] using h
    unfold consText
    by_cases hs : s.isEmpty = true
    · rw [if_pos hs]
      exact hr
    · rw [if_neg hs]
      cases hc2 : coalL r with
      | nil => rfl
      | cons b r2 =>
        rw [hc2] at hr
        cases b with
        | text t =>
          show forestNormal (.text (s ++ t) :: r2) = true
          simpa [forestNormal, nodeNormal] using hr
        | elem nm a cs =>
          show forestNormal (.text s :: .elem nm a cs :: r2) = true
          simpa [forestNormal, nodeNormal] using hr
  | .elem nm a cs :: r, h => by
    show forestNormal (coalN (.elem nm a cs) :: coalL r) = true
    simp only [forestNormal, Bool.and_eq_true] at h ⊢
    exact ⟨coal_norm_N _ h.1, coal_norm_L r h.2⟩

end

mutual

theorem render_coal_N : ∀ n : Node, nodeNormal n = true → renderN (coalN n) = renderN n
  | .text _, _ => rfl
  | .elem nm a cs, h => by
    show renderN (.elem nm a (coalL cs)) = renderN (.elem nm a cs)
    have hnm : voidNames.contains nm = false := by
      simp only [nodeNormal, Bool.and_eq_true] at h
      have h4 := h.1.1.1
      revert h4
      simp [validCleanNames, voidNames, List.contains]
      intro h4
      rcases h4 with h4 | h4 | h4 | h4 <;> subst h4 <;> decide
    unfold renderN
    rw [if_neg (by rw [hnm]; simp), if_neg (by rw [hnm]; simp)]
    have := render_coal_L cs (by
      simp only [nodeNormal, Bool.and_eq_true] at h
      exact h.2)
    rw [this]

theorem render_coal_L : ∀ ns : List Node, forestNormal ns = true → renderL (coalL ns) = renderL ns
  | [], _ => rfl
  | .text s :: r, h => by
    show renderL (consText s (coalL r)) = renderL (.text s :: r)
    rw [render_consText]
    have hr : forestNormal r = true := by simpa [forestNormal, nodeNormal] using h
    rw [render_coal_L r hr]
    rfl
  | .elem nm a cs :: r, h => by
    show renderL (coalN (.elem nm a cs) :: coalL r) = renderL (.elem nm a cs :: r)
    show renderN (coalN (.elem nm a cs)) ++ renderL (coalL r) = _
    simp only [forestNormal, Bool.and_eq_true] at h
    rw [render_coal_N _ h.1, render_coal_L r h.2]
    rfl

end

/-! ### Edge-trim preservation lemmas (towards C2) -/

theorem ltrimNodes_GT (ns : List Node) (h : forestGT ns = true) :
    forestGT (ltrimNodes ns) = true := by
  induction ns with
  | nil => rfl
  | cons n r ih =>
    cases n with
    | elem nm a cs => exact h
    | text s =>
      by_cases he : (ltrimBy pyWs s).isEmpty = true
      · show forestGT (ltrimNodes (.text s :: r)) = true
        simp only [ltrimNodes, he, if_pos]
        exact ih (forestGT_tail _ _ h)
      · show forestGT (ltrimNodes (.text s :: r)) = true
        simp only [ltrimNodes, he, if_neg, if_false, Bool.false_eq_true]
        apply forestGT_cons_of
        · show (!(ltrimBy pyWs s).isEmpty) = true
          simpa using he
        · exact forestGT_tail _ _ h
        · cases r with
          | nil => rfl
          | cons b r2 =>
            rw [headIsText_cons]
            have := forestGT_not_adj (.text s) b r2 h
            simpa [isText] using this

theorem ltrimNodes_normal (ns : List Node) (h : forestNormal ns = true) :
    forestNormal (ltrimNodes ns) = true := by
  cases ns with
  | nil => rfl
  | cons n r =>
    cases n with
    | elem nm a cs => exact h
    | text s =>
      have hr : forestNormal r = true := by simpa [forestNormal, nodeNormal] using h
      by_cases he : (ltrimBy pyWs s).isEmpty = true
      · show forestNormal (ltrimNodes (.text s :: r)) = true
        simp only [ltrimNodes, he, if_pos]
        exact ltrimNodes_normal r hr
      · show forestNormal (ltrimNodes (.text s :: r)) = true
        simp only [ltrimNodes, he, if_neg, if_false, Bool.false_eq_true]
        simpa [forestNormal, nodeNormal] using hr

theorem headIsText_rtrim (l : List Node) (h : headIsText (rtrimNodes l) = true) :
    headIsText l = true := by
  cases l with
  | nil => simpa [rtrimNodes, headIsText] using h
  | cons b r2 =>
    cases r2 with
    | nil =>
      cases b with
      | text s => rfl
      | elem nm a cs => simpa [rtrimNodes, headIsText] using h
    | cons d r3 =>
      rw [show rtrimNodes (b :: d :: r3) = b :: rtrimNodes (d :: r3) from rfl] at h
      rw [headIsText_cons] at h
      rw [headIsText_cons]
      exact h

theorem rtrimNodes_GT (ns : List Node) (h : forestGT ns = true) :
    forestGT (rtrimNodes ns) = true := by
  induction ns with
  | nil => rfl
  | cons n r ih =>
    cases r with
    | nil =>
      cases n with
      | text s =>
        show forestGT (rtrimNodes [.text s]) = true
        simp only [rtrimNodes]
        by_cases he : (rtrimBy pyWs s).isEmpty = true
        · simp only [he, if_pos]
          rfl
        · simp only [he, if_neg, if_false, Bool.false_eq_true]
          show (!(rtrimBy pyWs s).isEmpty) = true
          simpa using he
      | elem nm a cs => exact h
    | cons b r2 =>
      show forestGT (n :: rtrimNodes (b :: r2)) = true
      apply forestGT_cons_of
      · exact forestGT_head _ _ h
      · exact ih (forestGT_tail _ _ h)
      · cases hn : isText n
        · simp
        · cases hh : headIsText (rtrimNodes (b :: r2))
          · simp
          · exfalso
            have hb := headIsText_rtrim _ hh
            have hadj := forestGT_not_adj n b r2 h
            rw [headIsText_cons] at hb
            rw [hn, hb] at hadj
            simp at hadj

theorem rtrimNodes_normal (ns : List Node) (h : forestNormal ns = true) :
    forestNormal (rtrimNodes ns) = true := by
  induction ns with
  | nil => rfl
  | cons n r ih =>
    cases r with
    | nil =>
      cases n with
      | text s =>
        show forestNormal (rtrimNodes [.text s]) = true
        simp only [rtrimNodes]
        by_cases he : (rtrimBy pyWs s).isEmpty = true
        · simp only [he, if_pos]
          rfl
        · simp only [he, if_neg, if_false, Bool.false_eq_true]
          rfl
      | elem nm a cs => exact h
    | cons b r2 =>
      have hand : (nodeNormal n && forestNormal (b :: r2)) = true := h
      rw [Bool.and_eq_true] at hand
      show (nodeNormal n && forestNormal (rtrimNodes (b :: r2))) = true
      rw [Bool.and_eq_true]
      exact ⟨hand.1, ih hand.2⟩

/-! ### Cleaner normal-form lemmas (towards C2) -/

theorem forestTextWs_append (a b : List Node) :
    forestTextWs (a ++ b) = (forestTextWs a && forestTextWs b) := by
  induction a with
  | nil => simp [forestTextWs]
  | cons n r ih =>
    show (nodeTextWs n && forestTextWs (r ++ b)) = ((nodeTextWs n && forestTextWs r) && _)
    rw [ih, Bool.and_assoc]

theorem forestMid_append (a b : List Node) :
    forestMid (a ++ b) = (forestMid a && forestMid b) := by
  induction a with
  | nil => simp [forestMid]
  | cons n r ih =>
    show (nodeMid n && forestMid (r ++ b)) = ((nodeMid n && forestMid r) && _)
    rw [ih, Bool.and_assoc]

theorem forestNormal_append (a b : List Node) :
    forestNormal (a ++ b) = (forestNormal a && forestNormal b) := by
  induction a with
  | nil => simp [forestNormal]
  | cons n r ih =>
    show (nodeNormal n && forestNormal (r ++ b)) = ((nodeNormal n && forestNormal r) && _)
    rw [ih, Bool.and_assoc]

theorem forestBrOk_append (a b : List Node) :
    forestBrOk (a ++ b) = (forestBrOk a && forestBrOk b) := by
  induction a with
  | nil => simp [forestBrOk]
  | cons n r ih =>
    show (nodeBrOk n && forestBrOk (r ++ b)) = ((nodeBrOk n && forestBrOk r) && _)
    rw [ih, Bool.and_assoc]

mutual

theorem normTags_mid_N : ∀ n : Node, nodeBrOk n = true → forestMid (normTagsN n) = true
  | .text _, _ => rfl
  | .elem nm a cs, h => by
    have h2 : ((!voidNames.contains nm || cs.isEmpty) && forestBrOk cs) = true := h
    rw [Bool.and_eq_true] at h2
    show forestMid
      (if validCleanNames.contains nm then [.elem nm [] (normTagsL cs)] else normTagsL cs) = true
    by_cases hv : validCleanNames.contains nm = true
    · rw [if_pos hv]
      show (nodeMid (.elem nm [] (normTagsL cs)) && forestMid []) = true
      rw [Bool.and_eq_true]
      refine ⟨?_, rfl⟩
      show (validCleanNames.contains nm && List.isEmpty ([] : List (String × String)) &&
        (!(nm == "br") || (normTagsL cs).isEmpty) && forestMid (normTagsL cs)) = true
      rw [Bool.and_eq_true, Bool.and_eq_true, Bool.and_eq_true]
      refine ⟨⟨⟨hv, rfl⟩, ?_⟩, normTags_mid_L cs h2.2⟩
      by_cases hbr : (nm == "br") = true
      · have hnm : nm = "br" := by simpa using hbr
        subst hnm
        have hcs : cs.isEmpty = true := by simpa [voidNames] using h2.1
        have hcs0 : cs = [] := by simpa [List.isEmpty_iff] using hcs
        subst hcs0
        simp [normTagsL]
      · simp [hbr]
    · rw [if_neg hv]
      exact normTags_mid_L cs h2.2

theorem normTags_mid_L : ∀ ns : List Node, forestBrOk ns = true → forestMid (normTagsL ns) = true
  | [], _ => rfl
  | n :: r, h => by
    have h2 : (nodeBrOk n && forestBrOk r) = true := h
    rw [Bool.and_eq_true] at h2
    show forestMid (normTagsN n ++ normTagsL r) = true
    rw [forestMid_append, Bool.and_eq_true]
    exact ⟨normTags_mid_N n h2.1, normTags_mid_L r h2.2⟩

end

mutual

theorem normTags_ws_N : ∀ n : Node, forestTextWs (normTagsN n) = nodeTextWs n
  | .text s => by
    show forestTextWs [.text s] = textAllWs s
    simp [forestTextWs, nodeTextWs]
  | .elem nm a cs => by
    show forestTextWs
      (if validCleanNames.contains nm then [.elem nm [] (normTagsL cs)] else normTagsL cs) =
      forestTextWs cs
    by_cases hv : validCleanNames.contains nm = true
    · rw [if_pos hv]
      show (nodeTextWs (.elem nm [] (normTagsL cs)) && forestTextWs []) = _
      show (forestTextWs (normTagsL cs) && true) = _
      rw [Bool.and_true, normTags_ws_L cs]
    · rw [if_neg hv]
      exact normTags_ws_L cs

theorem normTags_ws_L : ∀ ns : List Node, forestTextWs (normTagsL ns) = forestTextWs ns
  | [] => rfl
  | n :: r => by
    show forestTextWs (normTagsN n ++ normTagsL r) = (nodeTextWs n && forestTextWs r)
    rw [forestTextWs_append, normTags_ws_N n, normTags_ws_L r]

end

mutual

theorem removeEmpty_ws_N : ∀ n : Node, forestTextWs (removeEmptyN n) = nodeTextWs n
  | .text s => by
    show forestTextWs [.text s] = textAllWs s
    simp [forestTextWs, nodeTextWs]
  | .elem nm a cs => by
    show forestTextWs (if forestTextWs cs then [] else [.elem nm a (removeEmptyL cs)]) =
      forestTextWs cs
    by_cases hw : forestTextWs cs = true
    · rw [if_pos hw, hw]
      rfl
    · rw [if_neg hw]
      show (nodeTextWs (.elem nm a (removeEmptyL cs)) && forestTextWs []) = _
      show (forestTextWs (removeEmptyL cs) && true) = _
      rw [Bool.and_true, removeEmpty_ws_L cs]

theorem removeEmpty_ws_L : ∀ ns : List Node, forestTextWs (removeEmptyL ns) = forestTextWs ns
  | [] => rfl
  | n :: r => by
    show forestTextWs (removeEmptyN n ++ removeEmptyL r) = (nodeTextWs n && forestTextWs r)
    rw [forestTextWs_append, removeEmpty_ws_N n, removeEmpty_ws_L r]

end

mutual

theorem removeEmpty_norm_N : ∀ n : Node, nodeMid n = true → forestNormal (removeEmptyN n) = true
  | .text _, _ => rfl
  | .elem nm a cs, h => by
    have h2 : (validCleanNames.contains nm && a.isEmpty &&
      (!(nm == "br") || cs.isEmpty) && forestMid cs) = true := h
    simp only [Bool.and_eq_true] at h2
    show forestNormal (if forestTextWs cs then [] else [.elem nm a (removeEmptyL cs)]) = true
    by_cases hw : forestTextWs cs = true
    · rw [if_pos hw]
      rfl
    · rw [if_neg hw]
      show (nodeNormal (.elem nm a (removeEmptyL cs)) && forestNormal []) = true
      rw [Bool.and_eq_true]
      refine ⟨?_, rfl⟩
      show (["p", "ul", "ol", "li"].contains nm && a.isEmpty &&
        !forestTextWs (removeEmptyL cs) && forestNormal (removeEmptyL cs)) = true
      simp only [Bool.and_eq_true]
      refine ⟨⟨⟨?_, h2.1.1.2⟩, ?_⟩, removeEmpty_norm_L cs h2.2⟩
      · have hv := h2.1.1.1
        revert hv
        simp only [validCleanNames, List.contains]
        simp only [List.elem_cons, List.elem_nil]
        intro hv
        have hnbr : (nm == "br") = false := by
          by_cases hbr : (nm == "br") = true
          · exfalso
            have hnm : nm = "br" := by simpa using hbr
            subst hnm
            have hcs : cs.isEmpty = true := by simpa using h2.1.2
            have hcs0 : cs = [] := by simpa [List.isEmpty_iff] using hcs
            subst hcs0
            exact hw rfl
          · simpa using hbr
        cases hp : (nm == "p") <;> cases hul : (nm == "ul") <;> cases hol : (nm == "ol") <;>
          cases hli : (nm == "li") <;> simp_all
      · rw [removeEmpty_ws_L cs]
        simpa using hw

theorem removeEmpty_norm_L : ∀ ns : List Node, forestMid ns = true →
    forestNormal (removeEmptyL ns) = true
  | [], _ => rfl
  | n :: r, h => by
    have h2 : (nodeMid n && forestMid r) = true := h
    rw [Bool.and_eq_true] at h2
    show forestNormal (removeEmptyN n ++ removeEmptyL r) = true
    rw [forestNormal_append, Bool.and_eq_true]
    exact ⟨removeEmpty_norm_N n h2.1, removeEmpty_norm_L r h2.2⟩

end

theorem cleanTree_normal (ns : List Node) (h : forestBrOk ns = true) :
    forestNormal (cleanTree ns) = true :=
  removeEmpty_norm_L (normTagsL ns) (normTags_mid_L ns h)

mutual

theorem normTags_id_N : ∀ n : Node, nodeNormal n = true → normTagsN n = [n]
  | .text _, _ => rfl
  | .elem nm a cs, h => by
    have h2 : (["p", "ul", "ol", "li"].contains nm && a.isEmpty &&
      !forestTextWs cs && forestNormal cs) = true := h
    simp only [Bool.and_eq_true] at h2
    have ha : a = [] := by simpa [List.isEmpty_iff] using h2.1.1.2
    subst ha
    have hv : validCleanNames.contains nm = true := by
      have h4 := h2.1.1.1
      revert h4
      simp only [validCleanNames, List.contains, List.elem_cons, List.elem_nil]
      intro h4
      cases hp : (nm == "p") <;> cases hul : (nm == "ul") <;> cases hol : (nm == "ol") <;>
        cases hli : (nm == "li") <;> simp_all
    show (if validCleanNames.contains nm then [.elem nm [] (normTagsL cs)]
      else normTagsL cs) = [.elem nm [] cs]
    rw [if_pos hv, normTags_id_L cs h2.2]

theorem normTags_id_L : ∀ ns : List Node, forestNormal ns = true → normTagsL ns = ns
  | [], _ => rfl
  | n :: r, h => by
    have h2 : (nodeNormal n && forestNormal r) = true := h
    rw [Bool.and_eq_true] at h2
    show normTagsN n ++ normTagsL r = n :: r
    rw [normTags_id_N n h2.1, normTags_id_L r h2.2]
    rfl

end

mutual

theorem removeEmpty_id_N : ∀ n : Node, nodeNormal n = true → removeEmptyN n = [n]
  | .text _, _ => rfl
  | .elem nm a cs, h => by
    have h2 : (["p", "ul", "ol", "li"].contains nm && a.isEmpty &&
      !forestTextWs cs && forestNormal cs) = true := h
    simp only [Bool.and_eq_true] at h2
    have hw : forestTextWs cs = false := by simpa using h2.1.2
    show (if forestTextWs cs then ([] : List Node) else [Node.elem nm a (removeEmptyL cs)]) =
      [Node.elem nm a cs]
    rw [hw]
    simp only [Bool.false_eq_true, if_false]
    rw [removeEmpty_id_L cs h2.2]

theorem removeEmpty_id_L : ∀ ns : List Node, forestNormal ns = true → removeEmptyL ns = ns
  | [], _ => rfl
  | n :: r, h => by
    have h2 : (nodeNormal n && forestNormal r) = true := h
    rw [Bool.and_eq_true] at h2
    show removeEmptyN n ++ removeEmptyL r = n :: r
    rw [removeEmpty_id_N n h2.1, removeEmpty_id_L r h2.2]
    rfl

end

theorem cleanTree_id (ns : List Node) (h : forestNormal ns = true) : cleanTree ns = ns := by
  unfold cleanTree
  rw [normTags_id_L ns h, removeEmpty_id_L ns h]

/-! ### The tree builder keeps void tags childless (towards C2) -/

theorem parseNodesGo_brOk : ∀ fuel cs, forestBrOk (parseNodesGo fuel cs).1 = true := by
  intro fuel
  induction fuel with
  | zero => intro cs; rfl
  | succ f ih =>
    intro cs
    cases cs with
    | nil => rfl
    | cons c t =>
      simp only [parseNodesGo]
      split
      · split
        · rfl
        · split
          · split
            · show forestBrOk (_ :: _) = true
              simp only [forestBrOk, nodeBrOk, Bool.and_eq_true]
              refine ⟨?_, ih _⟩
              simp
            · rename_i hvoid
              show forestBrOk (_ :: _) = true
              simp only [forestBrOk, nodeBrOk, Bool.and_eq_true]
              refine ⟨⟨?_, ih _⟩, ih _⟩
              cases hv : voidNames.contains (String.mk (lowerL (t.takeWhile isTagNameChar)))
              · rfl
              · exact absurd hv hvoid
          · split
            · exact ih _
            · show forestBrOk (Node.text _ :: _) = true
              simp only [forestBrOk, nodeBrOk, Bool.and_eq_true]
              exact ⟨trivial, ih _⟩
      · split
        · exact ih _
        · show forestBrOk (Node.text _ :: _) = true
          simp only [forestBrOk, nodeBrOk, Bool.and_eq_true]
          exact ⟨trivial, ih _⟩

theorem parseTopGo_brOk : ∀ fuel cs, forestBrOk (parseTopGo fuel cs) = true := by
  intro fuel
  induction fuel with
  | zero => intro cs; rfl
  | succ f ih =>
    intro cs
    simp only [parseTopGo]
    split
    · exact parseNodesGo_brOk _ _
    · rw [forestBrOk_append, Bool.and_eq_true]
      exact ⟨parseNodesGo_brOk _ _, ih _⟩

theorem parseHtml_brOk (s : List Char) : forestBrOk (parseHtml s) = true :=
  parseTopGo_brOk (s.length + 1) s

/-! ### Round trip: the tree builder re-reads the serialised forest (towards C2) -/

theorem leadsWith_nil (l : List Char) : leadsWith l [] = true := by cases l <;> rfl

theorem leadsWith_cons (a b : Char) (as_ bs : List Char) :
    leadsWith (a :: as_) (b :: bs) = (decide (a = b) && leadsWith as_ bs) := rfl

theorem tagStart_cons_ne (c : Char) (x : List Char) (hc : c ≠ '<') :
    tagStart (c :: x) = false := by
  unfold tagStart
  split
  · rename_i heq
    exfalso
    apply hc
    cases heq
    rfl
  · rename_i heq
    exfalso
    apply hc
    cases heq
    rfl
  · rfl

theorem takeWhile_all_append (p : Char → Bool) (l : List Char) (d : Char) (x : List Char)
    (hl : ∀ c ∈ l, p c = true) (hd : p d = false) :
    (l ++ d :: x).takeWhile p = l := by
  induction l with
  | nil => simp [List.takeWhile_cons, hd]
  | cons a r ih =>
    have ha : p a = true := hl a (by simp)
    simp [List.takeWhile_cons, ha, ih (fun c hc => hl c (by simp [hc]))]

theorem dropWhile_all_append (p : Char → Bool) (l : List Char) (d : Char) (x : List Char)
    (hl : ∀ c ∈ l, p c = true) (hd : p d = false) :
    (l ++ d :: x).dropWhile p = d :: x := by
  induction l with
  | nil => simp [List.dropWhile_cons, hd]
  | cons a r ih =>
    have ha : p a = true := hl a (by simp)
    simp [List.dropWhile_cons, ha, ih (fun c hc => hl c (by simp [hc]))]

theorem length_le_escape : ∀ s : List Char, s.length ≤ (escapeText s).length
  | [] => Nat.le_refl 0
  | c :: t => by
    show (c :: t).length ≤ (escChar c ++ escapeText t).length
    rw [List.length_append, List.length_cons]
    have h1 : 1 ≤ (escChar c).length :=
      List.length_pos.mpr (escChar_ne_nil c)
    have h2 := length_le_escape t
    omega

theorem readText_step_amp (f : Nat) (x : List Char) :
    readText (f + 1) ('&' :: 'a' :: 'm' :: 'p' :: ';' :: x) =
      ('&' :: (readText f x).1, (readText f x).2) := by
  have h1 : tagStart ('&' :: 'a' :: 'm' :: 'p' :: ';' :: x) = false := rfl
  have h2 : leadsWith ('a' :: 'm' :: 'p' :: ';' :: x) "amp;".data = true := by
    show leadsWith ('a' :: 'm' :: 'p' :: ';' :: x)
      ('a' :: 'm' :: 'p' :: ';' :: ([] : List Char)) = true
    simp +decide [leadsWith_cons, leadsWith_nil]
  simp [readText, h1, h2]

theorem readText_step_lt (f : Nat) (x : List Char) :
    readText (f + 1) ('&' :: 'l' :: 't' :: ';' :: x) =
      ('<' :: (readText f x).1, (readText f x).2) := by
  have h1 : tagStart ('&' :: 'l' :: 't' :: ';' :: x) = false := rfl
  have h2 : leadsWith ('l' :: 't' :: ';' :: x) "amp;".data = false := by
    show leadsWith ('l' :: 't' :: ';' :: x)
      ('a' :: 'm' :: 'p' :: ';' :: ([] : List Char)) = false
    simp +decide [leadsWith_cons]
  have h3 : leadsWith ('l' :: 't' :: ';' :: x) "lt;".data = true := by
    show leadsWith ('l' :: 't' :: ';' :: x) ('l' :: 't' :: ';' :: ([] : List Char)) = true
    simp +decide [leadsWith_cons, leadsWith_nil]
  simp [readText, h1, h2, h3]

theorem readText_step_gt (f : Nat) (x : List Char) :
    readText (f + 1) ('&' :: 'g' :: 't' :: ';' :: x) =
      ('>' :: (readText f x).1, (readText f x).2) := by
  have h1 : tagStart ('&' :: 'g' :: 't' :: ';' :: x) = false := rfl
  have h2 : leadsWith ('g' :: 't' :: ';' :: x) "amp;".data = false := by
    show leadsWith ('g' :: 't' :: ';' :: x)
      ('a' :: 'm' :: 'p' :: ';' :: ([] : List Char)) = false
    simp +decide [leadsWith_cons]
  have h3 : leadsWith ('g' :: 't' :: ';' :: x) "lt;".data = false := by
    show leadsWith ('g' :: 't' :: ';' :: x) ('l' :: 't' :: ';' :: ([] : List Char)) = false
    simp +decide [leadsWith_cons]
  have h4 : leadsWith ('g' :: 't' :: ';' :: x) "gt;".data = true := by
    show leadsWith ('g' :: 't' :: ';' :: x) ('g' :: 't' :: ';' :: ([] : List Char)) = true
    simp +decide [leadsWith_cons, leadsWith_nil]
  simp [readText, h1, h2, h3, h4]

theorem readText_step_chr (f : Nat) (c : Char) (x : List Char)
    (h1 : c ≠ '<') (h2 : c ≠ '&') :
    readText (f + 1) (c :: x) =
      (c :: (readText f x).1, (readText f x).2) := by
  have ht := tagStart_cons_ne c x h1
  simp only [readText, ht, Bool.false_eq_true, if_false]
  rw [if_neg h2]

theorem readText_escape : ∀ (s : List Char) (fuel : Nat) (rest : List Char),
    s.length ≤ fuel → (rest = [] ∨ tagStart rest = true) →
    readText fuel (escapeText s ++ rest) = (s, rest)
  | [], fuel, rest, _, hstop => by
    show readText fuel rest = ([], rest)
    cases fuel with
    | zero => rfl
    | succ f =>
      rcases hstop with h | h
      · subst h; rfl
      · cases rest with
        | nil => simp [tagStart] at h
        | cons c t =>
          show readText (f + 1) (c :: t) = ([], c :: t)
          simp only [readText, h, if_true]
  | a :: s2, fuel, rest, hlen, hstop => by
    cases fuel with
    | zero => simp at hlen
    | succ f =>
      have hlen2 : s2.length ≤ f := by
        have : s2.length + 1 ≤ f + 1 := by simpa using hlen
        omega
      have hrec := readText_escape s2 f rest hlen2 hstop
      by_cases ha : a = '&'
      · subst ha
        show readText (f + 1) ('&' :: 'a' :: 'm' :: 'p' :: ';' :: (escapeText s2 ++ rest)) =
          ('&' :: s2, rest)
        rw [readText_step_amp, hrec]
      · by_cases hb : a = '<'
        · subst hb
          show readText (f + 1) ('&' :: 'l' :: 't' :: ';' :: (escapeText s2 ++ rest)) =
            ('<' :: s2, rest)
          rw [readText_step_lt, hrec]
        · by_cases hc : a = '>'
          · subst hc
            show readText (f + 1) ('&' :: 'g' :: 't' :: ';' :: (escapeText s2 ++ rest)) =
              ('>' :: s2, rest)
            rw [readText_step_gt, hrec]
          · have hE : escapeText (a :: s2) = a :: escapeText s2 := by
              show escChar a ++ escapeText s2 = a :: escapeText s2
              simp only [escChar, ha, hb, hc, if_neg, if_false]
              rfl
            show readText (f + 1) (escapeText (a :: s2) ++ rest) = (a :: s2, rest)
            rw [hE]
            show readText (f + 1) (a :: (escapeText s2 ++ rest)) = (a :: s2, rest)
            rw [readText_step_chr f a _ hb ha, hrec]

theorem parseNodesGo_text_step (f : Nat) (c : Char) (t : List Char) (hc : c ≠ '<') :
    parseNodesGo (f + 1) (c :: t) =
      (if (readText f (c :: t)).1.isEmpty then (parseNodesGo f (readText f (c :: t)).2).1
       else .text (readText f (c :: t)).1 :: (parseNodesGo f (readText f (c :: t)).2).1,
       (parseNodesGo f (readText f (c :: t)).2).2) := by
  simp only [parseNodesGo]
  rw [if_neg hc]

theorem parseNodesGo_elem_step (f : Nat) (nm : String) (X : List Char)
    (hnm : nm = "p" ∨ nm = "ul" ∨ nm = "ol" ∨ nm = "li") :
    parseNodesGo (f + 2) ('<' :: (nm.data ++ '>' :: X)) =
      (Node.elem nm [] (parseNodesGo (f + 1) X).1 ::
        (parseNodesGo (f + 1) (consumeClose nm (parseNodesGo (f + 1) X).2)).1,
       (parseNodesGo (f + 1) (consumeClose nm (parseNodesGo (f + 1) X).2)).2) := by
  rcases hnm with h | h | h | h <;> subst h <;> rfl

theorem consumeClose_render (nm : String) (x : List Char)
    (hnm : nm = "p" ∨ nm = "ul" ∨ nm = "ol" ∨ nm = "li") :
    consumeClose nm ('<' :: '/' :: (nm.data ++ '>' :: x)) = x := by
  rcases hnm with h | h | h | h <;> subst h <;> rfl

theorem nodeNormal_elem_name (nm : String) (a : List (String × String)) (cs : List Node)
    (h : nodeNormal (.elem nm a cs) = true) :
    nm = "p" ∨ nm = "ul" ∨ nm = "ol" ∨ nm = "li" := by
  have h2 : (["p", "ul", "ol", "li"].contains nm && a.isEmpty &&
    !forestTextWs cs && forestNormal cs) = true := h
  simp only [Bool.and_eq_true] at h2
  have h4 := h2.1.1.1
  revert h4
  simp only [List.contains, List.elem_cons, List.elem_nil]
  intro h4
  cases hp : (nm == "p") <;> cases hul : (nm == "ul") <;> cases hol : (nm == "ol") <;>
    cases hli : (nm == "li") <;> simp_all

theorem render_stop (r : List Node) (rest : List Char)
    (hn : forestNormal r = true)
    (hstop : rest = [] ∨ ∃ r2, rest = '<' :: '/' :: r2)
    (hh : headIsText r = false) :
    renderL r ++ rest = [] ∨ tagStart (renderL r ++ rest) = true := by
  cases r with
  | nil =>
    rcases hstop with h | ⟨r2, h⟩
    · left
      simp [renderL, h]
    · right
      subst h
      rfl
  | cons n r2 =>
    cases n with
    | text s => simp [headIsText] at hh
    | elem nm a cs =>
      right
      have h2 : (nodeNormal (.elem nm a cs) && forestNormal r2) = true := hn
      rw [Bool.and_eq_true] at h2
      have hnames := nodeNormal_elem_name nm a cs h2.1
      have hvd : voidNames.contains nm = false := by
        rcases hnames with h | h | h | h <;> subst h <;> rfl
      show tagStart ((renderN (.elem nm a cs) ++ renderL r2) ++ rest) = true
      unfold renderN
      rw [if_neg (by rw [hvd]; simp)]
      rcases hnames with h | h | h | h <;> subst h <;> rfl

theorem parseNodesGo_render : ∀ (fuel : Nat) (ns : List Node) (rest : List Char),
    forestNormal ns = true → forestGT ns = true →
    (rest = [] ∨ ∃ r2, rest = '<' :: '/' :: r2) →
    (renderL ns ++ rest).length < fuel →
    parseNodesGo fuel (renderL ns ++ rest) = (ns, rest) := by
  intro fuel
  induction fuel with
  | zero =>
    intro ns rest _ _ _ hb
    exact absurd hb (Nat.not_lt_zero _)
  | succ f ih =>
    intro ns rest hn hgt hstop hb
    cases ns with
    | nil =>
      show parseNodesGo (f + 1) ([] ++ rest) = ([], rest)
      rcases hstop with h | ⟨r2, h⟩
      · subst h
        rfl
      · subst h
        rfl
    | cons n r =>
      cases n with
      | text s =>
        have hs_ne : s.isEmpty = false := by
          have h1 : (!s.isEmpty) = true := forestGT_head _ _ hgt
          cases he : s.isEmpty
          · rfl
          · rw [he] at h1
            simp at h1
        have hsnil : s ≠ [] := by
          cases s with
          | nil => simp at hs_ne
          | cons a t => simp
        have hnr : forestNormal r = true := by
          have h2 : (nodeNormal (.text s) && forestNormal r) = true := hn
          rw [Bool.and_eq_true] at h2
          exact h2.2
        have hgtr : forestGT r = true := forestGT_tail _ _ hgt
        have hhr : headIsText r = false := by
          cases r with
          | nil => rfl
          | cons b r2 =>
            rw [headIsText_cons]
            have h3 := forestGT_not_adj (.text s) b r2 hgt
            simpa [isText] using h3
        have hstop2 := render_stop r rest hnr hstop hhr
        have hlenE : (escapeText s).length + ((renderL r).length + rest.length) < f + 1 := by
          have h4 : (renderL (.text s :: r) ++ rest).length < f + 1 := hb
          simpa [renderL, renderN, List.length_append] using h4
        have hescpos : 0 < (escapeText s).length := by
          have h5 : escapeText s ≠ [] := by
            intro h0
            exact hsnil ((escapeText_eq_nil_iff s).mp h0)
          exact List.length_pos.mpr h5
        have hslen : s.length ≤ f := by
          have h6 := length_le_escape s
          omega
        have hrt := readText_escape s f (renderL r ++ rest) hslen hstop2
        obtain ⟨c0, T, hE, hc0⟩ := escapeText_head s hsnil
        show parseNodesGo (f + 1) ((escapeText s ++ renderL r) ++ rest) = (.text s :: r, rest)
        rw [List.append_assoc, hE]
        show parseNodesGo (f + 1) (c0 :: (T ++ (renderL r ++ rest))) = (.text s :: r, rest)
        rw [parseNodesGo_text_step f c0 _ hc0]
        have hrt2 : readText f (c0 :: (T ++ (renderL r ++ rest))) = (s, renderL r ++ rest) := by
          rw [hE] at hrt
          simpa using hrt
        rw [hrt2]
        show (if s.isEmpty then (parseNodesGo f (renderL r ++ rest)).1
          else .text s :: (parseNodesGo f (renderL r ++ rest)).1,
          (parseNodesGo f (renderL r ++ rest)).2) = (.text s :: r, rest)
        rw [hs_ne]
        simp only [Bool.false_eq_true, if_false]
        rw [ih r rest hnr hgtr hstop (by
          have h7 : (renderL r ++ rest).length = (renderL r).length + rest.length :=
            List.length_append _ _
          omega)]
      | elem nm a cs =>
        have h2 : (nodeNormal (.elem nm a cs) && forestNormal r) = true := hn
        rw [Bool.and_eq_true] at h2
        have hnn := h2.1
        have hnr := h2.2
        have h3 : (["p", "ul", "ol", "li"].contains nm && a.isEmpty &&
          !forestTextWs cs && forestNormal cs) = true := hnn
        simp only [Bool.and_eq_true] at h3
        have ha : a = [] := by simpa [List.isEmpty_iff] using h3.1.1.2
        subst ha
        have hncs := h3.2
        have hgtcs : forestGT cs = true := forestGT_head _ _ hgt
        have hgtr := forestGT_tail _ _ hgt
        have hnames := nodeNormal_elem_name nm [] cs hnn
        have hvd : voidNames.contains nm = false := by
          rcases hnames with h | h | h | h <;> subst h <;> rfl
        have hnmlen : 1 ≤ nm.data.length := by
          rcases hnames with h | h | h | h <;> subst h <;> decide
        have hrender : renderL (.elem nm [] cs :: r) ++ rest =
            '<' :: (nm.data ++ '>' ::
              (renderL cs ++ ('<' :: '/' :: (nm.data ++ '>' :: (renderL r ++ rest))))) := by
          show (renderN (.elem nm [] cs) ++ renderL r) ++ rest = _
          unfold renderN
          rw [if_neg (by rw [hvd]; simp)]
          simp [renderAttrs, List.append_assoc]
        rw [hrender]
        have hbL := hb
        rw [hrender] at hbL
        have hbl2 : 1 + nm.data.length + 1 + (renderL cs).length + 2 + nm.data.length + 1 +
            (renderL r).length + rest.length < f + 1 := by
          simp only [List.length_cons, List.length_append] at hbL
          omega
        obtain ⟨f1, rfl⟩ : ∃ f1, f = f1 + 1 := by
          cases f with
          | zero => omega
          | succ f1 => exact ⟨f1, rfl⟩
        rw [parseNodesGo_elem_step f1 nm _ hnames]
        have hkids := ih cs ('<' :: '/' :: (nm.data ++ '>' :: (renderL r ++ rest))) hncs hgtcs
          (Or.inr ⟨_, rfl⟩)
          (by
            simp only [List.length_cons, List.length_append]
            omega)
        rw [hkids]
        show (Node.elem nm [] cs ::
          (parseNodesGo (f1 + 1)
            (consumeClose nm ('<' :: '/' :: (nm.data ++ '>' :: (renderL r ++ rest))))).1,
          (parseNodesGo (f1 + 1)
            (consumeClose nm ('<' :: '/' :: (nm.data ++ '>' :: (renderL r ++ rest))))).2) =
          (Node.elem nm [] cs :: r, rest)
        rw [consumeClose_render nm _ hnames]
        rw [ih r rest hnr hgtr hstop (by
          have h7 : (renderL r ++ rest).length = (renderL r).length + rest.length :=
            List.length_append _ _
          omega)]

theorem parseHtml_render (ns : List Node) (hn : forestNormal ns = true)
    (hgt : forestGT ns = true) : parseHtml (renderL ns) = ns := by
  have h := parseNodesGo_render ((renderL ns).length + 1) ns [] hn hgt (Or.inl rfl)
    (by simp)
  rw [List.append_nil] at h
  show parseTopGo ((renderL ns).length + 1) (renderL ns) = ns
  simp only [parseTopGo]
  rw [h]

theorem clean_output_fixed (ct : List Node) (hctn : forestNormal ct = true) :
    clean_html_attributes (some (String.mk (pyStrip (renderL ct)))) =
      String.mk (pyStrip (renderL ct)) := by
  have hcgt := coal_GT_L ct
  have hcn := coal_norm_L ct hctn
  have hrc := render_coal_L ct hctn
  have hkey : pyStrip (renderL ct) = renderL (rtrimNodes (ltrimNodes (coalL ct))) := by
    show rtrimBy pyWs (ltrimBy pyWs (renderL ct)) =
      renderL (rtrimNodes (ltrimNodes (coalL ct)))
    rw [← hrc, ltrim_render _ hcgt, rtrim_render _ (ltrimNodes_GT _ hcgt)]
  have hwn : forestNormal (rtrimNodes (ltrimNodes (coalL ct))) = true :=
    rtrimNodes_normal _ (ltrimNodes_normal _ hcn)
  have hwgt : forestGT (rtrimNodes (ltrimNodes (coalL ct))) = true :=
    rtrimNodes_GT _ (ltrimNodes_GT _ hcgt)
  rw [hkey]
  by_cases h2 : (String.mk (renderL (rtrimNodes (ltrimNodes (coalL ct))))).data.isEmpty = true
  · simp only [clean_html_attributes]
    rw [if_pos h2]
    have h0 : renderL (rtrimNodes (ltrimNodes (coalL ct))) = [] := by
      have h3 : (renderL (rtrimNodes (ltrimNodes (coalL ct)))).isEmpty = true := h2
      simpa [List.isEmpty_iff] using h3
    rw [h0]
  · simp only [clean_html_attributes]
    rw [if_neg h2]
    rw [parseHtml_render _ hwn hwgt]
    rw [cleanTree_id _ hwn]
    rw [← hkey]
    rw [pyStrip_idem]

/-- Claim C2: `clean_html_attributes` is idempotent — feeding its output back
through the function returns the same string, for every input. -/
theorem C2_clean_idempotent (x : Option String) :
    clean_html_attributes (some (clean_html_attributes x)) = clean_html_attributes x := by
  match x with
  | none =>
    show clean_html_attributes (some "") = ""
    rfl
  | some s =>
    by_cases hd : s.data.isEmpty = true
    · have h1 : clean_html_attributes (some s) = "" := by
        simp only [clean_html_attributes]
        rw [if_pos hd]
      rw [h1]
      rfl
    · have h1 : clean_html_attributes (some s) =
          String.mk (pyStrip (renderL (cleanTree (parseHtml s.data)))) := by
        simp only [clean_html_attributes]
        rw [if_neg hd]
      rw [h1]
      exact clean_output_fixed _ (cleanTree_normal _ (parseHtml_brOk s.data))

end SIH
